import Mathlib

/-!
# Verification of the satoxid sequential-counter cardinality encoder

This file embeds the encoding core of the `satoxid` library
(`src/constraints/cardinality.rs` and the `Lit` type of `src/lib.rs`) in Lean.
Clauses are lists of nonzero signed integers in DIMACS convention; the encoder
state tracks the next fresh variable id of the variable map and the list of
clauses emitted to the backend.  The circuit builder (`src/circuit.rs`) is not
part of the provided sources and is modelled from the specification, §4.3.
-/

/-- A clause: a list of signed integer literals (DIMACS convention). -/
abbrev Clause := List Int

/-- The observable encoder state: the variable-map's fresh counter together
with the clause stream emitted to the backend.  `new_var` of `VarMap` hands
out `nextVar` and increments it; `add_clause` of the backend appends. -/
structure EncState where
  nextVar : Nat
  clauses : List Clause
deriving DecidableEq, Repr

/-- Backend `add_clause`: append one clause to the emitted stream. -/
def addClause (c : Clause) (st : EncState) : EncState :=
  ⟨st.nextVar, st.clauses ++ [c]⟩

/-- `VarMap::new_var`: allocate a fresh (anonymous) positive variable id. -/
def newVar (st : EncState) : Int × EncState :=
  ((st.nextVar : Int), ⟨st.nextVar + 1, st.clauses⟩)

/-- `(0..k).map(|_| varmap.new_var()).collect()`: `k` fresh variable ids. -/
def newVars : Nat → EncState → List Int × EncState
  | 0, st => ([], st)
  | k + 1, st =>
    let p := newVar st
    let q := newVars k p.2
    (p.1 :: q.1, q.2)

/-- `Direction` of the circuit builder (spec §3): which Tseitin polarities of a
gate definition are emitted. -/
inductive Direction where
  | inToOut
  | outToIn
  | both
deriving DecidableEq, Repr

/-- Whether the inputs-imply-output half of a gate is emitted. -/
def Direction.fwd : Direction → Bool
  | .inToOut => true
  | .outToIn => false
  | .both => true

/-- Whether the output-implies-inputs half of a gate is emitted. -/
def Direction.bwd : Direction → Bool
  | .inToOut => false
  | .outToIn => true
  | .both => true

/-- Modelled from the spec: `src/circuit.rs` is not in the sources.  §4.3
`equal(a, b)`: emit `{¬a, b}` if `D ∈ {InToOut, Both}` and `{a, ¬b}` if
`D ∈ {OutToIn, Both}`. -/
def equalGate (d : Direction) (a b : Int) (st : EncState) : EncState :=
  let st := if d.fwd then addClause [-a, b] st else st
  if d.bwd then addClause [a, -b] st else st

/-- Modelled from the spec: `src/circuit.rs` is not in the sources.  §4.3
`set_zero(a)`: emit `{¬a}` unconditionally. -/
def setZero (a : Int) (st : EncState) : EncState :=
  addClause [-a] st

/-- Modelled from the spec: `src/circuit.rs` is not in the sources.  §4.3
`and_gate(inputs, o)`: `InToOut` emits one clause `{¬i₁,…,¬iₖ, o}`; `OutToIn`
emits `k` clauses `{¬o, iⱼ}`; `Both` emits both sets. -/
def andGate (d : Direction) (is : List Int) (o : Int) (st : EncState) : EncState :=
  let st := if d.fwd then addClause (is.map (fun i => -i) ++ [o]) st else st
  if d.bwd then is.foldl (fun st i => addClause [-o, i] st) st else st

/-- Modelled from the spec: `src/circuit.rs` is not in the sources.  §4.3
`or_gate(inputs, o)`: `InToOut` emits `k` clauses `{¬iⱼ, o}`; `OutToIn` emits
one clause `{¬o, i₁,…,iₖ}`; `Both` emits both sets. -/
def orGate (d : Direction) (is : List Int) (o : Int) (st : EncState) : EncState :=
  let st := if d.fwd then is.foldl (fun st i => addClause [-i, o] st) st else st
  if d.bwd then addClause (-o :: is) st else st

/-- Inner loop of `encode_cardinality_constraint` (`for j in 1..k`): a fresh
AND-auxiliary `a` is defined as `vᵢ ∧ s[i−1][j−1]`, and `s[i][j]` as
`a ∨ s[i−1][j]`.  `js` is the index list `[1, …, k−1]`. -/
def counterInner (d : Direction) (v : Int) (prev newS : List Int) :
    List Nat → EncState → EncState
  | [], st => st
  | j :: js, st =>
    let p := newVar st
    let st := andGate d [v, prev.getD (j - 1) 0] p.1 p.2
    let st := orGate d [p.1, prev.getD j 0] (newS.getD j 0) st
    counterInner d v prev newS js st

/-- Outer loop of `encode_cardinality_constraint`
(`for (i, &v) in vars.iter().enumerate().skip(1)`).  The row of the last
input is materialised into the supplied `out` row when one is present;
every other row is freshly allocated. -/
def counterLoop (k : Nat) (d : Direction) (out : Option (List Int)) :
    List Int → List Int → EncState → List Int × EncState
  | [], prev, st => (prev, st)
  | v :: rest, prev, st =>
    let p : List Int × EncState :=
      match rest, out with
      | [], some os => (os, st)
      | _, _ => newVars k st
    let newS := p.1
    let st := orGate d [v, prev.getD 0 0] (newS.getD 0 0) p.2
    let st := counterInner d v prev newS ((List.range k).drop 1) st
    counterLoop k d out rest newS st

/-- The `out` precondition assert of `encode_cardinality_constraint`:
a supplied final row must have length at least `k`. -/
def outShort (out : Option (List Int)) (k : Nat) : Bool :=
  match out with
  | none => false
  | some os => os.length < k

/-- `encode_cardinality_constraint` (src/constraints/cardinality.rs:13-69):
sequential counter over the already-mapped integer literals `vars`.  Returns
`none` where the Rust code panics (`assert!(k > 0)`, the `out` length assert,
and `panic!` on an empty literal sequence), otherwise the final counter row
together with the updated state. -/
def encode_cardinality_constraint (vars : List Int) (k : Nat) (d : Direction)
    (out : Option (List Int)) (st : EncState) : Option (List Int × EncState) :=
  if k = 0 then none
  else if outShort out k then none
  else
    match vars with
    | [] => none
    | v :: rest =>
      let p := newVars k st
      let prevS := p.1
      let st := equalGate d v (prevS.getD 0 0) p.2
      let st := (prevS.drop 1).foldl (fun st s => setZero s st) st
      some (counterLoop k d out rest prevS st)

/-- `AtMostK::encode` (cardinality.rs:85-103): for `k = 0`, unit-negate every
literal; otherwise run the counter with `k+1` outputs, direction `InToOut`,
and assert the negation of the last output. -/
def AtMostK_encode (lits : List Int) (k : Nat) (st : EncState) : Option EncState :=
  if k = 0 then
    some (lits.foldl (fun st v => addClause [-v] st) st)
  else
    match encode_cardinality_constraint lits (k + 1) .inToOut none st with
    | none => none
    | some (out, st) => some (addClause [-(out.getLastD 0)] st)

/-- `AtleastK::encode` (cardinality.rs:219-234): a no-op for `k = 0`;
otherwise counter with `k` outputs, direction `OutToIn`, asserting the last
output. -/
def AtleastK_encode (lits : List Int) (k : Nat) (st : EncState) : Option EncState :=
  if k = 0 then
    some st
  else
    match encode_cardinality_constraint lits k .outToIn none st with
    | none => none
    | some (out, st) => some (addClause [out.getLastD 0] st)

/-- `ExactlyK::encode` (cardinality.rs:340-359): for `k = 0`, unit-negate every
literal; otherwise counter with `k+1` outputs, direction `Both`, asserting
`out[out.len()-2]` and `¬out[out.len()-1]`. -/
def ExactlyK_encode (lits : List Int) (k : Nat) (st : EncState) : Option EncState :=
  if k = 0 then
    some (lits.foldl (fun st v => addClause [-v] st) st)
  else
    match encode_cardinality_constraint lits (k + 1) .both none st with
    | none => none
    | some (out, st) =>
      let st := addClause [out.getD (out.length - 2) 0] st
      some (addClause [-(out.getD (out.length - 1) 0)] st)

/-- `AtMostK::encode_constraint_implies_repr` (cardinality.rs:112-146). -/
def AtMostK_implies_repr (lits : List Int) (k : Nat) (repr? : Option Int)
    (st : EncState) : Option (Int × EncState) :=
  if k = 0 then
    let p := match repr? with | some r => (r, st) | none => newVar st
    some (p.1, addClause (lits ++ [p.1]) p.2)
  else
    match encode_cardinality_constraint lits (k + 1) .outToIn none st with
    | none => none
    | some (out, st) =>
      let r := -(out.getLastD 0)
      match repr? with
      | some repr =>
        let st := addClause [r, repr] st
        let st := addClause [-r, -repr] st
        some (repr, st)
      | none => some (r, st)

/-- `AtMostK::encode_constraint_equals_repr` (cardinality.rs:148-187). -/
def AtMostK_equals_repr (lits : List Int) (k : Nat) (repr? : Option Int)
    (st : EncState) : Option (Int × EncState) :=
  if k = 0 then
    let p := match repr? with | some r => (r, st) | none => newVar st
    let st := addClause (lits ++ [p.1]) p.2
    some (p.1, lits.foldl (fun st l => addClause [-l, -p.1] st) st)
  else
    match encode_cardinality_constraint lits (k + 1) .both none st with
    | none => none
    | some (out, st) =>
      let r := -(out.getLastD 0)
      match repr? with
      | some repr =>
        let st := addClause [r, repr] st
        let st := addClause [-r, -repr] st
        some (repr, st)
      | none => some (r, st)

/-- `AtleastK::encode_constraint_implies_repr` (cardinality.rs:243-275). -/
def AtleastK_implies_repr (lits : List Int) (k : Nat) (repr? : Option Int)
    (st : EncState) : Option (Int × EncState) :=
  if k = 0 then
    let p := match repr? with | some r => (r, st) | none => newVar st
    some (p.1, addClause [p.1] p.2)
  else
    match encode_cardinality_constraint lits k .inToOut none st with
    | none => none
    | some (out, st) =>
      let r := out.getLastD 0
      match repr? with
      | some repr =>
        let st := addClause [r, repr] st
        let st := addClause [-r, -repr] st
        some (repr, st)
      | none => some (r, st)

/-- `AtleastK::encode_constraint_equals_repr` (cardinality.rs:277-309). -/
def AtleastK_equals_repr (lits : List Int) (k : Nat) (repr? : Option Int)
    (st : EncState) : Option (Int × EncState) :=
  if k = 0 then
    let p := match repr? with | some r => (r, st) | none => newVar st
    some (p.1, addClause [p.1] p.2)
  else
    match encode_cardinality_constraint lits k .both none st with
    | none => none
    | some (out, st) =>
      let r := out.getLastD 0
      match repr? with
      | some repr =>
        let st := addClause [r, repr] st
        let st := addClause [-r, -repr] st
        some (repr, st)
      | none => some (r, st)

/-- `ExactlyK::encode_constraint_implies_repr` (cardinality.rs:368-396). -/
def ExactlyK_implies_repr (lits : List Int) (k : Nat) (repr? : Option Int)
    (st : EncState) : Option (Int × EncState) :=
  let p := match repr? with | some r => (r, st) | none => newVar st
  let repr := p.1
  if k = 0 then
    some (repr, addClause (lits ++ [repr]) p.2)
  else
    match encode_cardinality_constraint lits (k + 1) .both none p.2 with
    | none => none
    | some (out, st) =>
      let r1 := out.getD (out.length - 2) 0
      let r2 := out.getD (out.length - 1) 0
      some (repr, addClause [-r1, r2, repr] st)

/-- `ExactlyK::encode_constraint_equals_repr` (cardinality.rs:398-432). -/
def ExactlyK_equals_repr (lits : List Int) (k : Nat) (repr? : Option Int)
    (st : EncState) : Option (Int × EncState) :=
  let p := match repr? with | some r => (r, st) | none => newVar st
  let repr := p.1
  if k = 0 then
    let st := addClause (lits ++ [repr]) p.2
    some (repr, lits.foldl (fun st l => addClause [-l, -repr] st) st)
  else
    match encode_cardinality_constraint lits (k + 1) .both none p.2 with
    | none => none
    | some (out, st) =>
      let r1 := out.getD (out.length - 2) 0
      let r2 := out.getD (out.length - 1) 0
      let st := addClause [-r1, r2, repr] st
      let st := addClause [r1, -repr] st
      some (repr, addClause [-r2, -repr] st)

/-- `max` of the group lengths (`self.lits.iter().map(|l| l.len()).max()`). -/
def maxLen (gs : List (List Int)) : Nat :=
  gs.foldl (fun m g => Nat.max m g.length) 0

/-- `min` of the group lengths over a nonempty group list. -/
def minLen : List (List Int) → Nat
  | [] => 0
  | g :: gs => gs.foldl (fun m h => Nat.min m h.length) g.length

/-- The per-group loop of `SameCardinality::encode`: each group feeds the
shared output row. -/
def sameCardLoop (out : List Int) : List (List Int) → EncState → Option EncState
  | [], st => some st
  | g :: gs, st =>
    match encode_cardinality_constraint g g.length .both (some out) st with
    | none => none
    | some (_, st) => sameCardLoop out gs st

/-- `SameCardinality::encode` (cardinality.rs:472-498): allocate a shared
output row of length `max`, pin its top `max − min` entries to false, and run
every group's counter into it with direction `Both`. -/
def SameCardinality_encode (groups : List (List Int)) (st : EncState) :
    Option EncState :=
  match groups with
  | [] => some st
  | _ :: _ =>
    let mx := maxLen groups
    let mn := minLen groups
    let p := newVars mx st
    let rep := p.1
    let st := (rep.reverse.take (mx - mn)).foldl (fun st v => addClause [-v] st) p.2
    sameCardLoop rep groups st

/-- Per-group part of `encode_same_cardinality_repr`: allocate a private
output row per group, pin its top `max − k` entries, and run the counter. -/
def sameCardReprRows (mx : Nat) : List (List Int) → EncState →
    Option (List (List Int) × EncState)
  | [], st => some ([], st)
  | g :: gs, st =>
    let p := newVars mx st
    let row := p.1
    let st := (row.reverse.take (mx - g.length)).foldl
      (fun st v => addClause [-v] st) p.2
    match encode_cardinality_constraint g g.length .both (some row) st with
    | none => none
    | some (_, st) =>
      match sameCardReprRows mx gs st with
      | none => none
      | some (rows, st) => some (row :: rows, st)

/-- `reprs.windows(2)` as adjacent pairs. -/
def adjPairs : List α → List (α × α)
  | [] => []
  | [_] => []
  | a :: b :: rest => (a, b) :: adjPairs (b :: rest)

/-- The equivalence-variable loop of `encode_same_cardinality_repr`
(`for i in 0..max`). -/
def sameCardEquivLoop (rows : List (List Int)) (equal : Bool) :
    List Nat → EncState → List Int × EncState
  | [], st => ([], st)
  | i :: is, st =>
    let p := newVar st
    let r := p.1
    let st := addClause (rows.map (fun row => row.getD i 0) ++ [r]) p.2
    let st := addClause (rows.map (fun row => -(row.getD i 0)) ++ [r]) st
    let st :=
      if equal then
        let st := (adjPairs rows).foldl
          (fun st pr => addClause [-(pr.1.getD i 0), pr.2.getD i 0, -r] st) st
        addClause [-((rows.getLastD []).getD i 0), (rows.headD []).getD i 0, -r] st
      else st
    let q := sameCardEquivLoop rows equal is st
    (r :: q.1, q.2)

/-- `encode_same_cardinality_repr` (cardinality.rs:520-589), used by both
`SameCardinality::encode_constraint_implies_repr` (`equal = false`) and
`encode_constraint_equals_repr` (`equal = true`). -/
def encode_same_cardinality_repr (groups : List (List Int)) (repr? : Option Int)
    (equal : Bool) (st : EncState) : Option (Int × EncState) :=
  let p := match repr? with | some r => (r, st) | none => newVar st
  let repr := p.1
  let st := p.2
  match groups with
  | [] => some (repr, addClause [repr] st)
  | _ :: _ =>
    let mx := maxLen groups
    match sameCardReprRows mx groups st with
    | none => none
    | some (rows, st) =>
      let q := sameCardEquivLoop rows equal (List.range mx) st
      let equivs := q.1
      let st := q.2
      let st :=
        if equal then equivs.foldl (fun st e => addClause [-repr, e] st) st
        else st
      some (repr, addClause (equivs.map (fun e => -e) ++ [repr]) st)

/-- `Lit` (src/lib.rs:281-284): a polarised literal over a symbolic variable. -/
inductive Lit (V : Type) where
  | Pos : V → Lit V
  | Neg : V → Lit V
deriving DecidableEq, Repr

/-- `Lit::is_pos` (src/lib.rs:302-304). -/
def Lit.is_pos : Lit V → Bool
  | .Pos _ => true
  | .Neg _ => false

/-- `Lit::is_neg` exactly as written in the source (src/lib.rs:307-309):
`matches!(self, Self::Pos(_))`. -/
def Lit.is_neg : Lit V → Bool
  | .Pos _ => true
  | .Neg _ => false

/-! ## Semantics of the emitted CNF -/

/-- Truth value of a signed integer literal under an assignment of the
(positive) variable ids. -/
def litVal (σ : Nat → Bool) (l : Int) : Bool :=
  if 0 < l then σ l.natAbs else !(σ l.natAbs)

/-- A clause is a disjunction of its literals. -/
def clauseSat (σ : Nat → Bool) (c : Clause) : Bool :=
  c.any (litVal σ)

/-- Satisfaction of a clause list. -/
def satAll (σ : Nat → Bool) (cs : List Clause) : Prop :=
  ∀ c ∈ cs, clauseSat σ c = true

/-- Number of true literals of a list under an assignment. -/
def cnt (σ : Nat → Bool) (ls : List Int) : Nat :=
  ls.countP (litVal σ)

/-- Two assignments agree on all variables below `n`. -/
def agreeBelow (n : Nat) (σ τ : Nat → Bool) : Prop :=
  ∀ m < n, σ m = τ m

/-- All clauses of the state mention only variables already allocated. -/
def BoundedState (st : EncState) : Prop :=
  ∀ c ∈ st.clauses, ∀ l ∈ c, l.natAbs < st.nextVar

/-- The integer literals a named input of the canonical instance maps to:
`n` distinct positive variables `1, …, n`, as the variable map allocates for
`n` distinct symbolic variables. -/
def inputLits (n : Nat) : List Int :=
  (List.range n).map (fun i => ((i + 1 : Nat) : Int))

/-- Encoder state after allocating the `n` named inputs and nothing else. -/
def initState (n : Nat) : EncState :=
  ⟨n + 1, []⟩

/-- Number of true inputs of an input vector. -/
def cntF (u : Fin n → Bool) : Nat :=
  (Finset.univ.filter (fun i => u i = true)).card

/-- The assignment of the named input variables induced by an input vector. -/
def extendInput (n : Nat) (u : Fin n → Bool) : Nat → Bool :=
  fun m => if h : 1 ≤ m ∧ m ≤ n then u ⟨m - 1, by omega⟩ else false

instance (σ : Nat → Bool) (cs : List Clause) : Decidable (satAll σ cs) :=
  inferInstanceAs (Decidable (∀ c ∈ cs, clauseSat σ c = true))

/-! ## Basic lemmas on the state operations -/

@[simp] theorem addClause_nextVar (c : Clause) (st : EncState) :
    (addClause c st).nextVar = st.nextVar := rfl

@[simp] theorem mem_addClause {x c : Clause} {st : EncState} :
    x ∈ (addClause c st).clauses ↔ x ∈ st.clauses ∨ x = c := by
  simp [addClause]

@[simp] theorem newVar_fst (st : EncState) : (newVar st).1 = (st.nextVar : Int) := rfl

@[simp] theorem newVar_nextVar (st : EncState) :
    (newVar st).2.nextVar = st.nextVar + 1 := rfl

@[simp] theorem newVar_clauses (st : EncState) :
    (newVar st).2.clauses = st.clauses := rfl

@[simp] theorem newVars_nextVar (k : Nat) (st : EncState) :
    (newVars k st).2.nextVar = st.nextVar + k := by
  induction k generalizing st with
  | zero => rfl
  | succ k ih => simp [newVars, ih]; omega

@[simp] theorem newVars_clauses (k : Nat) (st : EncState) :
    (newVars k st).2.clauses = st.clauses := by
  induction k generalizing st with
  | zero => rfl
  | succ k ih => simp [newVars, ih]

@[simp] theorem newVars_length (k : Nat) (st : EncState) :
    (newVars k st).1.length = k := by
  induction k generalizing st with
  | zero => rfl
  | succ k ih => simp [newVars, ih]

theorem newVars_getD (k : Nat) (st : EncState) (j : Nat) (hj : j < k) :
    (newVars k st).1.getD j 0 = ((st.nextVar + j : Nat) : Int) := by
  induction k generalizing st j with
  | zero => omega
  | succ k ih =>
    cases j with
    | zero => simp [newVars]
    | succ j =>
      have := ih (newVar st).2 j (by omega)
      simpa [newVars, Nat.add_assoc, Nat.add_comm 1 j] using this

theorem foldl_addClause_clauses (f : α → Clause) (l : List α) (st : EncState) {x : Clause} :
    x ∈ (l.foldl (fun st i => addClause (f i) st) st).clauses ↔
      x ∈ st.clauses ∨ ∃ i ∈ l, x = f i := by
  induction l generalizing st with
  | nil => simp
  | cons a l ih =>
    simp only [List.foldl_cons, ih, mem_addClause, List.mem_cons]
    constructor
    · rintro (( h | rfl) | ⟨i, hi, rfl⟩)
      · exact Or.inl h
      · exact Or.inr ⟨a, Or.inl rfl, rfl⟩
      · exact Or.inr ⟨i, Or.inr hi, rfl⟩
    · rintro (h | ⟨i, (rfl | hi), rfl⟩)
      · exact Or.inl (Or.inl h)
      · exact Or.inl (Or.inr rfl)
      · exact Or.inr ⟨i, hi, rfl⟩

@[simp] theorem foldl_addClause_nextVar (f : α → Clause) (l : List α) (st : EncState) :
    (l.foldl (fun st i => addClause (f i) st) st).nextVar = st.nextVar := by
  induction l generalizing st with
  | nil => rfl
  | cons a l ih => simp [ih]

/-! ### Gate lemmas -/

@[simp] theorem equalGate_nextVar (d : Direction) (a b : Int) (st : EncState) :
    (equalGate d a b st).nextVar = st.nextVar := by
  unfold equalGate; split <;> split <;> rfl

theorem mem_equalGate {x : Clause} {d : Direction} {a b : Int} {st : EncState} :
    x ∈ (equalGate d a b st).clauses ↔
      x ∈ st.clauses ∨ (d.fwd = true ∧ x = [-a, b]) ∨ (d.bwd = true ∧ x = [a, -b]) := by
  unfold equalGate
  cases d <;> simp [Direction.fwd, Direction.bwd] <;> tauto

@[simp] theorem setZero_nextVar (a : Int) (st : EncState) :
    (setZero a st).nextVar = st.nextVar := rfl

theorem mem_setZero {x : Clause} {a : Int} {st : EncState} :
    x ∈ (setZero a st).clauses ↔ x ∈ st.clauses ∨ x = [-a] := by
  simp [setZero]

@[simp] theorem andGate_nextVar (d : Direction) (is : List Int) (o : Int) (st : EncState) :
    (andGate d is o st).nextVar = st.nextVar := by
  unfold andGate; split <;> split <;> simp

theorem mem_andGate {x : Clause} {d : Direction} {is : List Int} {o : Int} {st : EncState} :
    x ∈ (andGate d is o st).clauses ↔
      x ∈ st.clauses ∨ (d.fwd = true ∧ x = is.map (fun i => -i) ++ [o]) ∨
        (d.bwd = true ∧ ∃ i ∈ is, x = [-o, i]) := by
  unfold andGate
  cases d <;> simp [Direction.fwd, Direction.bwd, foldl_addClause_clauses] <;> tauto

@[simp] theorem orGate_nextVar (d : Direction) (is : List Int) (o : Int) (st : EncState) :
    (orGate d is o st).nextVar = st.nextVar := by
  unfold orGate; split <;> split <;> simp

theorem mem_orGate {x : Clause} {d : Direction} {is : List Int} {o : Int} {st : EncState} :
    x ∈ (orGate d is o st).clauses ↔
      x ∈ st.clauses ∨ (d.fwd = true ∧ ∃ i ∈ is, x = [-i, o]) ∨
        (d.bwd = true ∧ x = -o :: is) := by
  unfold orGate
  cases d <;> simp [Direction.fwd, Direction.bwd, foldl_addClause_clauses] <;> aesop

/-! ### Semantics lemmas -/

theorem litVal_neg (σ : Nat → Bool) {l : Int} (hl : l ≠ 0) :
    litVal σ (-l) = !(litVal σ l) := by
  unfold litVal
  rcases lt_trichotomy l 0 with h | h | h
  · simp only [if_pos (by omega : (0:Int) < -l), if_neg (by omega : ¬ (0:Int) < l)]
    simp
  · exact absurd h hl
  · simp only [if_neg (by omega : ¬ (0:Int) < -l), if_pos h, Int.natAbs_neg]

theorem litVal_agree {n : Nat} {σ τ : Nat → Bool} (h : agreeBelow n σ τ)
    {l : Int} (hl : l.natAbs < n) : litVal σ l = litVal τ l := by
  unfold litVal
  rw [h _ hl]

@[simp] theorem litVal_ofNat (σ : Nat → Bool) (m : Nat) (hm : 0 < m) :
    litVal σ (m : Int) = σ m := by
  unfold litVal
  rw [if_pos (by omega), Int.natAbs_ofNat]

theorem clauseSat_agree {n : Nat} {σ τ : Nat → Bool} (h : agreeBelow n σ τ)
    {c : Clause} (hc : ∀ l ∈ c, l.natAbs < n) : clauseSat σ c = clauseSat τ c := by
  unfold clauseSat
  induction c with
  | nil => rfl
  | cons a c ih =>
    simp only [List.any_cons]
    rw [litVal_agree h (hc a (List.mem_cons_self a c)),
      ih (fun l hl => hc l (List.mem_cons_of_mem a hl))]

theorem cnt_agree {n : Nat} {σ τ : Nat → Bool} (h : agreeBelow n σ τ)
    {ls : List Int} (hls : ∀ l ∈ ls, l.natAbs < n) : cnt σ ls = cnt τ ls := by
  unfold cnt
  induction ls with
  | nil => rfl
  | cons a ls ih =>
    rw [List.countP_cons, List.countP_cons,
      litVal_agree h (hls a (List.mem_cons_self a ls)),
      ih (fun l hl => hls l (List.mem_cons_of_mem a hl))]

theorem agreeBelow_trans {n m : Nat} {σ τ ρ : Nat → Bool} (h₁ : agreeBelow m σ τ)
    (h₂ : agreeBelow n τ ρ) (hnm : n ≤ m) : agreeBelow n σ ρ := by
  intro x hx
  rw [h₁ x (by omega), h₂ x hx]

theorem agreeBelow_mono {n m : Nat} {σ τ : Nat → Bool} (h : agreeBelow m σ τ)
    (hnm : n ≤ m) : agreeBelow n σ τ := fun x hx => h x (by omega)

theorem cnt_append (σ : Nat → Bool) (xs ys : List Int) :
    cnt σ (xs ++ ys) = cnt σ xs + cnt σ ys := by
  simp [cnt, List.countP_append]

theorem cnt_cons (σ : Nat → Bool) (x : Int) (xs : List Int) :
    cnt σ (x :: xs) = cnt σ xs + (litVal σ x).toNat := by
  simp only [cnt, List.countP_cons]
  cases h : litVal σ x <;> simp [h]

theorem cnt_singleton (σ : Nat → Bool) (x : Int) :
    cnt σ [x] = (litVal σ x).toNat := by
  simp only [cnt, List.countP_cons, List.countP_nil, Nat.zero_add]
  cases h : litVal σ x <;> simp [h]

/-! ## The inner loop of the counter -/

theorem counterInner_nextVar (d : Direction) (v : Int) (prev newS : List Int)
    (js : List Nat) (st : EncState) :
    (counterInner d v prev newS js st).nextVar = st.nextVar + js.length := by
  induction js generalizing st with
  | nil => rfl
  | cons j js ih => simp [counterInner, ih]; omega

theorem counterInner_mem (d : Direction) (v : Int) (prev newS : List Int)
    (js : List Nat) (st : EncState) {c : Clause} (hc : c ∈ st.clauses) :
    c ∈ (counterInner d v prev newS js st).clauses := by
  induction js generalizing st with
  | nil => exact hc
  | cons j js ih =>
    refine ih _ ?_
    rw [mem_orGate]
    exact Or.inl (by rw [mem_andGate]; exact Or.inl (by simpa using hc))

theorem mem_andGate2 {x : Clause} {d : Direction} {a b o : Int} {st : EncState} :
    x ∈ (andGate d [a, b] o st).clauses ↔
      x ∈ st.clauses ∨ (d.fwd = true ∧ x = [-a, -b, o]) ∨
        (d.bwd = true ∧ (x = [-o, a] ∨ x = [-o, b])) := by
  rw [mem_andGate]
  simp only [List.map_cons, List.map_nil, List.nil_append, List.cons_append,
    List.mem_cons, List.not_mem_nil, or_false]
  constructor
  · rintro (h | ⟨hf, rfl⟩ | ⟨hb, i, (rfl | rfl), rfl⟩)
    · exact Or.inl h
    · exact Or.inr (Or.inl ⟨hf, rfl⟩)
    · exact Or.inr (Or.inr ⟨hb, Or.inl rfl⟩)
    · exact Or.inr (Or.inr ⟨hb, Or.inr rfl⟩)
  · rintro (h | ⟨hf, rfl⟩ | ⟨hb, (rfl | rfl)⟩)
    · exact Or.inl h
    · exact Or.inr (Or.inl ⟨hf, rfl⟩)
    · exact Or.inr (Or.inr ⟨hb, a, Or.inl rfl, rfl⟩)
    · exact Or.inr (Or.inr ⟨hb, b, Or.inr rfl, rfl⟩)

theorem mem_orGate2 {x : Clause} {d : Direction} {a b o : Int} {st : EncState} :
    x ∈ (orGate d [a, b] o st).clauses ↔
      x ∈ st.clauses ∨ (d.fwd = true ∧ (x = [-a, o] ∨ x = [-b, o])) ∨
        (d.bwd = true ∧ x = [-o, a, b]) := by
  rw [mem_orGate]
  simp only [List.mem_cons, List.not_mem_nil, or_false]
  constructor
  · rintro (h | ⟨hf, i, (rfl | rfl), rfl⟩ | ⟨hb, rfl⟩)
    · exact Or.inl h
    · exact Or.inr (Or.inl ⟨hf, Or.inl rfl⟩)
    · exact Or.inr (Or.inl ⟨hf, Or.inr rfl⟩)
    · exact Or.inr (Or.inr ⟨hb, rfl⟩)
  · rintro (h | ⟨hf, (rfl | rfl)⟩ | ⟨hb, rfl⟩)
    · exact Or.inl h
    · exact Or.inr (Or.inl ⟨hf, a, Or.inl rfl, rfl⟩)
    · exact Or.inr (Or.inl ⟨hf, b, Or.inr rfl, rfl⟩)
    · exact Or.inr (Or.inr ⟨hb, rfl⟩)

theorem counterInner_bounded (d : Direction) (v : Int) (prev newS : List Int)
    (js : List Nat) (st : EncState)
    (hb : BoundedState st)
    (hv : v.natAbs < st.nextVar)
    (hjs : ∀ j ∈ js, (prev.getD (j - 1) 0).natAbs < st.nextVar ∧
      (prev.getD j 0).natAbs < st.nextVar ∧ (newS.getD j 0).natAbs < st.nextVar) :
    BoundedState (counterInner d v prev newS js st) := by
  induction js generalizing st with
  | nil => exact hb
  | cons j js ih =>
    simp only [counterInner]
    obtain ⟨h1, h2, h3⟩ := hjs j (List.mem_cons_self j js)
    have hN1 : (orGate d [(newVar st).1, prev.getD j 0] (newS.getD j 0)
        (andGate d [v, prev.getD (j - 1) 0] (newVar st).1 (newVar st).2)).nextVar
        = st.nextVar + 1 := by simp
    refine ih _ ?_ (by rw [hN1]; omega) ?_
    · intro c hc l hl
      rw [hN1]
      rw [mem_orGate2] at hc
      rcases hc with hc | ⟨_, (rfl | rfl)⟩ | ⟨_, rfl⟩
      · rw [mem_andGate2] at hc
        rcases hc with hc | ⟨_, rfl⟩ | ⟨_, (rfl | rfl)⟩
        · exact Nat.lt_succ_of_lt (hb c (by simpa using hc) l hl)
        · simp only [List.mem_cons, List.not_mem_nil, or_false] at hl
          rcases hl with rfl | rfl | rfl
          · simpa using Nat.lt_succ_of_lt hv
          · simpa using Nat.lt_succ_of_lt h1
          · simp
        · simp only [List.mem_cons, List.not_mem_nil, or_false] at hl
          rcases hl with rfl | rfl
          · simp
          · exact Nat.lt_succ_of_lt hv
        · simp only [List.mem_cons, List.not_mem_nil, or_false] at hl
          rcases hl with rfl | rfl
          · simp
          · exact Nat.lt_succ_of_lt h1
      · simp only [List.mem_cons, List.not_mem_nil, or_false] at hl
        rcases hl with rfl | rfl
        · simp
        · exact Nat.lt_succ_of_lt h3
      · simp only [List.mem_cons, List.not_mem_nil, or_false] at hl
        rcases hl with rfl | rfl
        · simpa using Nat.lt_succ_of_lt h2
        · exact Nat.lt_succ_of_lt h3
      · simp only [List.mem_cons, List.not_mem_nil, or_false] at hl
        rcases hl with rfl | rfl | rfl
        · simpa using Nat.lt_succ_of_lt h3
        · simp
        · exact Nat.lt_succ_of_lt h2
    · intro i hi
      obtain ⟨g1, g2, g3⟩ := hjs i (List.mem_cons_of_mem j hi)
      rw [hN1]
      exact ⟨Nat.lt_succ_of_lt g1, Nat.lt_succ_of_lt g2, Nat.lt_succ_of_lt g3⟩

theorem clauseSat_pair {σ : Nat → Bool} {a b : Int} :
    clauseSat σ [a, b] = (litVal σ a || litVal σ b) := by
  simp [clauseSat]

theorem clauseSat_triple {σ : Nat → Bool} {a b c : Int} :
    clauseSat σ [a, b, c] = (litVal σ a || (litVal σ b || litVal σ c)) := by
  simp [clauseSat]

theorem counterInner_low {d : Direction} (hd : d.fwd = true)
    {v : Int} {prev newS : List Int} {js : List Nat} {st : EncState}
    (hN : 1 ≤ st.nextVar) (hv : v ≠ 0)
    (hnz : ∀ j ∈ js, prev.getD (j - 1) 0 ≠ 0 ∧ prev.getD j 0 ≠ 0)
    (σ : Nat → Bool)
    (hsat : ∀ c ∈ (counterInner d v prev newS js st).clauses, clauseSat σ c = true) :
    ∀ j ∈ js, ((litVal σ v && litVal σ (prev.getD (j - 1) 0)) ||
        litVal σ (prev.getD j 0)) = true →
      litVal σ (newS.getD j 0) = true := by
  induction js generalizing st with
  | nil => intro j hj; exact absurd hj (List.not_mem_nil j)
  | cons j₀ js ih =>
    intro j hj hval
    simp only [counterInner] at hsat
    rcases List.mem_cons.mp hj with rfl | hj'
    · -- the clauses of index j are emitted in this step
      have hand : clauseSat σ [-v, -(prev.getD (j - 1) 0), (newVar st).1] = true := by
        refine hsat _ (counterInner_mem _ _ _ _ _ _ ?_)
        rw [mem_orGate2]
        refine Or.inl ?_
        rw [mem_andGate2]
        exact Or.inr (Or.inl ⟨hd, rfl⟩)
      have hor1 : clauseSat σ [-(newVar st).1, newS.getD j 0] = true := by
        refine hsat _ (counterInner_mem _ _ _ _ _ _ ?_)
        rw [mem_orGate2]
        exact Or.inr (Or.inl ⟨hd, Or.inl rfl⟩)
      have hor2 : clauseSat σ [-(prev.getD j 0), newS.getD j 0] = true := by
        refine hsat _ (counterInner_mem _ _ _ _ _ _ ?_)
        rw [mem_orGate2]
        exact Or.inr (Or.inl ⟨hd, Or.inr rfl⟩)
      obtain ⟨hp1, hp2⟩ := hnz j (List.mem_cons_self j js)
      have ha0 : (newVar st).1 ≠ 0 := by simp [newVar]; omega
      rw [clauseSat_triple, litVal_neg σ hv, litVal_neg σ hp1] at hand
      rw [clauseSat_pair, litVal_neg σ ha0] at hor1
      rw [clauseSat_pair, litVal_neg σ hp2] at hor2
      rw [Bool.or_eq_true] at hval
      rcases hval with h | h
      · rw [Bool.and_eq_true] at h
        obtain ⟨hv', hp'⟩ := h
        rw [hv', hp'] at hand
        simp only [Bool.not_true, Bool.false_or] at hand
        rw [hand] at hor1
        simpa using hor1
      · rw [h] at hor2
        simpa using hor2
    · exact ih (by simp only [orGate_nextVar, andGate_nextVar, newVar_nextVar]; omega)
        (fun i hi => hnz i (List.mem_cons_of_mem j₀ hi)) hsat j hj' hval

theorem counterInner_up {d : Direction} (hd : d.bwd = true)
    {v : Int} {prev newS : List Int} {js : List Nat} {st : EncState}
    (hN : 1 ≤ st.nextVar)
    (hnz : ∀ j ∈ js, prev.getD (j - 1) 0 ≠ 0 ∧ prev.getD j 0 ≠ 0 ∧ newS.getD j 0 ≠ 0)
    (σ : Nat → Bool)
    (hsat : ∀ c ∈ (counterInner d v prev newS js st).clauses, clauseSat σ c = true) :
    ∀ j ∈ js, litVal σ (newS.getD j 0) = true →
      ((litVal σ v && litVal σ (prev.getD (j - 1) 0)) ||
        litVal σ (prev.getD j 0)) = true := by
  induction js generalizing st with
  | nil => intro j hj; exact absurd hj (List.not_mem_nil j)
  | cons j₀ js ih =>
    intro j hj hval
    simp only [counterInner] at hsat
    rcases List.mem_cons.mp hj with rfl | hj'
    · have hand1 : clauseSat σ [-(newVar st).1, v] = true := by
        refine hsat _ (counterInner_mem _ _ _ _ _ _ ?_)
        rw [mem_orGate2]
        refine Or.inl ?_
        rw [mem_andGate2]
        exact Or.inr (Or.inr ⟨hd, Or.inl rfl⟩)
      have hand2 : clauseSat σ [-(newVar st).1, prev.getD (j - 1) 0] = true := by
        refine hsat _ (counterInner_mem _ _ _ _ _ _ ?_)
        rw [mem_orGate2]
        refine Or.inl ?_
        rw [mem_andGate2]
        exact Or.inr (Or.inr ⟨hd, Or.inr rfl⟩)
      have hor : clauseSat σ [-(newS.getD j 0), (newVar st).1, prev.getD j 0] = true := by
        refine hsat _ (counterInner_mem _ _ _ _ _ _ ?_)
        rw [mem_orGate2]
        exact Or.inr (Or.inr ⟨hd, rfl⟩)
      obtain ⟨hp1, hp2, hp3⟩ := hnz j (List.mem_cons_self j js)
      have ha0 : (newVar st).1 ≠ 0 := by
        simp only [newVar_fst, ne_eq, Int.natCast_eq_zero]
        omega
      rw [clauseSat_pair, litVal_neg σ ha0] at hand1 hand2
      rw [clauseSat_triple, litVal_neg σ hp3] at hor
      rw [hval] at hor
      simp only [Bool.not_true, Bool.false_or] at hor
      rw [Bool.or_eq_true] at hor
      rcases hor with ha | hp
      · rw [ha] at hand1 hand2
        simp only [Bool.not_true, Bool.false_or] at hand1 hand2
        rw [hand1, hand2]
        simp
      · rw [hp]
        simp
    · exact ih (by simp only [orGate_nextVar, andGate_nextVar, newVar_nextVar]; omega)
        (fun i hi => hnz i (List.mem_cons_of_mem j₀ hi)) hsat j hj' hval

theorem counterInner_ext {d : Direction}
    {v : Int} {prev newS : List Int} {js : List Nat} {st : EncState}
    (hN : 1 ≤ st.nextVar)
    (hv : v ≠ 0 ∧ v.natAbs < st.nextVar)
    (hjs : ∀ j ∈ js,
      (prev.getD (j - 1) 0 ≠ 0 ∧ (prev.getD (j - 1) 0).natAbs < st.nextVar) ∧
      (prev.getD j 0 ≠ 0 ∧ (prev.getD j 0).natAbs < st.nextVar) ∧
      (newS.getD j 0 ≠ 0 ∧ (newS.getD j 0).natAbs < st.nextVar))
    (σ₀ : Nat → Bool)
    (hrel : ∀ j ∈ js, litVal σ₀ (newS.getD j 0) =
      ((litVal σ₀ v && litVal σ₀ (prev.getD (j - 1) 0)) ||
        litVal σ₀ (prev.getD j 0))) :
    ∃ σ, agreeBelow st.nextVar σ σ₀ ∧
      (∀ c ∈ (counterInner d v prev newS js st).clauses,
        c ∈ st.clauses ∨ clauseSat σ c = true) := by
  induction js generalizing st σ₀ with
  | nil => exact ⟨σ₀, fun m _ => rfl, fun c hc => Or.inl hc⟩
  | cons j₀ js ih =>
    obtain ⟨⟨hp1, hb1⟩, ⟨hp2, hb2⟩, ⟨hp3, hb3⟩⟩ := hjs j₀ (List.mem_cons_self j₀ js)
    set bval := (litVal σ₀ v && litVal σ₀ (prev.getD (j₀ - 1) 0)) with hbval
    set σ₁ : Nat → Bool := fun n => if n = st.nextVar then bval else σ₀ n with hσ₁
    have hA : agreeBelow st.nextVar σ₁ σ₀ := by
      intro m hm
      simp only [hσ₁]
      rw [if_neg (by omega)]
    have hva : litVal σ₁ v = litVal σ₀ v := litVal_agree hA hv.2
    have hpa : litVal σ₁ (prev.getD (j₀ - 1) 0) = litVal σ₀ (prev.getD (j₀ - 1) 0) :=
      litVal_agree hA hb1
    have hpj : litVal σ₁ (prev.getD j₀ 0) = litVal σ₀ (prev.getD j₀ 0) :=
      litVal_agree hA hb2
    have hsj : litVal σ₁ (newS.getD j₀ 0) = litVal σ₀ (newS.getD j₀ 0) :=
      litVal_agree hA hb3
    have ha0 : (newVar st).1 ≠ 0 := by
      simp only [newVar_fst, ne_eq, Int.natCast_eq_zero]
      omega
    have hav : litVal σ₁ (newVar st).1 = bval := by
      simp only [newVar_fst]
      rw [litVal_ofNat σ₁ st.nextVar (by omega)]
      simp [hσ₁]
    set st₁ := orGate d [(newVar st).1, prev.getD j₀ 0] (newS.getD j₀ 0)
      (andGate d [v, prev.getD (j₀ - 1) 0] (newVar st).1 (newVar st).2) with hst₁
    have hN₁ : st₁.nextVar = st.nextVar + 1 := by simp [hst₁]
    have hrel₀ : litVal σ₀ (newS.getD j₀ 0) = (bval || litVal σ₀ (prev.getD j₀ 0)) :=
      hrel j₀ (List.mem_cons_self j₀ js)
    obtain ⟨σ, hagree, hmemsat⟩ := @ih st₁
      (by omega)
      ⟨hv.1, by rw [hN₁]; omega⟩
      (by
        intro i hi
        obtain ⟨⟨g1, g1b⟩, ⟨g2, g2b⟩, ⟨g3, g3b⟩⟩ := hjs i (List.mem_cons_of_mem j₀ hi)
        rw [hN₁]
        exact ⟨⟨g1, by omega⟩, ⟨g2, by omega⟩, ⟨g3, by omega⟩⟩)
      σ₁
      (by
        intro i hi
        obtain ⟨⟨g1, g1b⟩, ⟨g2, g2b⟩, ⟨g3, g3b⟩⟩ := hjs i (List.mem_cons_of_mem j₀ hi)
        rw [litVal_agree hA g3b, litVal_agree hA g1b, litVal_agree hA g2b, hva]
        exact hrel i (List.mem_cons_of_mem j₀ hi))
    refine ⟨σ, ?_, ?_⟩
    · exact agreeBelow_trans (agreeBelow_mono hagree (by omega)) hA (le_refl _)
    · intro c hc
      simp only [counterInner] at hc
      rcases hmemsat c hc with hc₁ | hsatc
      · -- the clause was present before the recursive call: either old, or one of
        -- this step's emissions, each satisfied by the canonical extension
        have hσσ₁ : agreeBelow st₁.nextVar σ σ₁ := hagree
        have sat_transport : ∀ x : Clause, (∀ l ∈ x, l.natAbs < st₁.nextVar) →
            clauseSat σ₁ x = true → clauseSat σ x = true := by
          intro x hx hsatx
          rw [clauseSat_agree hσσ₁ hx]
          exact hsatx
        rw [hst₁, mem_orGate2] at hc₁
        rcases hc₁ with hc₂ | ⟨_, (rfl | rfl)⟩ | ⟨_, rfl⟩
        · rw [mem_andGate2] at hc₂
          rcases hc₂ with hc₃ | ⟨_, rfl⟩ | ⟨_, (rfl | rfl)⟩
          · exact Or.inl (by simpa using hc₃)
          · -- [-v, -(prev (j₀-1)), a]
            refine Or.inr (sat_transport _ ?_ ?_)
            · intro l hl
              simp only [List.mem_cons, List.not_mem_nil, or_false] at hl
              rw [hN₁]
              rcases hl with rfl | rfl | rfl
              · simpa using Nat.lt_succ_of_lt hv.2
              · simpa using Nat.lt_succ_of_lt hb1
              · simp
            · rw [clauseSat_triple, litVal_neg σ₁ hv.1, litVal_neg σ₁ hp1,
                hav, hva, hpa, hbval]
              cases litVal σ₀ v <;> cases litVal σ₀ (prev.getD (j₀ - 1) 0) <;> simp
          · -- [-a, v]
            refine Or.inr (sat_transport _ ?_ ?_)
            · intro l hl
              simp only [List.mem_cons, List.not_mem_nil, or_false] at hl
              rw [hN₁]
              rcases hl with rfl | rfl
              · simp
              · exact Nat.lt_succ_of_lt hv.2
            · rw [clauseSat_pair, litVal_neg σ₁ ha0, hav, hva, hbval]
              cases litVal σ₀ v <;> cases litVal σ₀ (prev.getD (j₀ - 1) 0) <;> simp
          · -- [-a, prev (j₀-1)]
            refine Or.inr (sat_transport _ ?_ ?_)
            · intro l hl
              simp only [List.mem_cons, List.not_mem_nil, or_false] at hl
              rw [hN₁]
              rcases hl with rfl | rfl
              · simp
              · exact Nat.lt_succ_of_lt hb1
            · rw [clauseSat_pair, litVal_neg σ₁ ha0, hav, hpa, hbval]
              cases litVal σ₀ v <;> cases litVal σ₀ (prev.getD (j₀ - 1) 0) <;> simp
        · -- [-a, newS j₀]
          refine Or.inr (sat_transport _ ?_ ?_)
          · intro l hl
            simp only [List.mem_cons, List.not_mem_nil, or_false] at hl
            rw [hN₁]
            rcases hl with rfl | rfl
            · simp
            · exact Nat.lt_succ_of_lt hb3
          · rw [clauseSat_pair, litVal_neg σ₁ ha0, hav, hsj, hrel₀]
            cases bval <;> cases litVal σ₀ (prev.getD j₀ 0) <;> simp
        · -- [-(prev j₀), newS j₀]
          refine Or.inr (sat_transport _ ?_ ?_)
          · intro l hl
            simp only [List.mem_cons, List.not_mem_nil, or_false] at hl
            rw [hN₁]
            rcases hl with rfl | rfl
            · simpa using Nat.lt_succ_of_lt hb2
            · exact Nat.lt_succ_of_lt hb3
          · rw [clauseSat_pair, litVal_neg σ₁ hp2, hpj, hsj, hrel₀]
            cases bval <;> cases litVal σ₀ (prev.getD j₀ 0) <;> simp
        · -- [-(newS j₀), a, prev j₀]
          refine Or.inr (sat_transport _ ?_ ?_)
          · intro l hl
            simp only [List.mem_cons, List.not_mem_nil, or_false] at hl
            rw [hN₁]
            rcases hl with rfl | rfl | rfl
            · simpa using Nat.lt_succ_of_lt hb3
            · simp
            · exact Nat.lt_succ_of_lt hb2
          · rw [clauseSat_triple, litVal_neg σ₁ hp3, hav, hpj, hsj, hrel₀]
            cases bval <;> cases litVal σ₀ (prev.getD j₀ 0) <;> simp
      · exact Or.inr hsatc

/-! ## The outer loop of the counter -/

theorem counterLoop_cons_none (k : Nat) (d : Direction) (v : Int)
    (rest prev : List Int) (st : EncState) :
    counterLoop k d none (v :: rest) prev st =
      counterLoop k d none rest (newVars k st).1
        (counterInner d v prev (newVars k st).1 ((List.range k).drop 1)
          (orGate d [v, prev.getD 0 0] ((newVars k st).1.getD 0 0) (newVars k st).2)) := by
  cases rest <;> rfl

theorem mem_range_drop_one {j k : Nat} :
    j ∈ (List.range k).drop 1 ↔ 1 ≤ j ∧ j < k := by
  cases k with
  | zero => simp
  | succ k =>
    rw [List.range_succ_eq_map]
    simp only [List.drop_succ_cons, List.drop_zero, List.mem_map, List.mem_range]
    constructor
    · rintro ⟨m, hm, rfl⟩
      omega
    · rintro ⟨h1, h2⟩
      exact ⟨j - 1, by omega, by omega⟩

theorem newVars_getD_pos (k : Nat) (st : EncState) (hN : 1 ≤ st.nextVar)
    {j : Nat} (hj : j < k) : 0 < (newVars k st).1.getD j 0 := by
  rw [newVars_getD k st j hj]
  omega

theorem newVars_getD_natAbs (k : Nat) (st : EncState) {j : Nat} (hj : j < k) :
    ((newVars k st).1.getD j 0).natAbs = st.nextVar + j := by
  rw [newVars_getD k st j hj, Int.natAbs_ofNat]

theorem counterLoop_mem (k : Nat) (d : Direction) (out : Option (List Int))
    (rest prev : List Int) (st : EncState) {c : Clause} (hc : c ∈ st.clauses) :
    c ∈ (counterLoop k d out rest prev st).2.clauses := by
  induction rest generalizing prev st with
  | nil => exact hc
  | cons v rest ih =>
    simp only [counterLoop]
    apply ih
    apply counterInner_mem
    rw [mem_orGate2]
    refine Or.inl ?_
    have hmatch : (match rest, out with
        | ([] : List Int), some os => (os, st)
        | _, _ => newVars k st).2.clauses = st.clauses := by
      rcases rest <;> rcases out <;> simp
    rw [hmatch]
    exact hc

theorem counterLoop_nextVar_ge (k : Nat) (d : Direction) (out : Option (List Int))
    (rest prev : List Int) (st : EncState) :
    st.nextVar ≤ (counterLoop k d out rest prev st).2.nextVar := by
  induction rest generalizing prev st with
  | nil => exact le_refl _
  | cons v rest ih =>
    simp only [counterLoop]
    refine le_trans ?_ (ih _ _)
    simp only [counterInner_nextVar, orGate_nextVar]
    have hmatch : st.nextVar ≤ (match rest, out with
        | ([] : List Int), some os => (os, st)
        | _, _ => newVars k st).2.nextVar := by
      rcases rest <;> rcases out <;> simp
    omega

theorem counterLoop_bounded (k : Nat) (d : Direction)
    (rest prev : List Int) (st : EncState)
    (hk : 1 ≤ k) (hN : 1 ≤ st.nextVar)
    (hb : BoundedState st)
    (hrest : ∀ l ∈ rest, l.natAbs < st.nextVar)
    (hprev : ∀ j < k, (prev.getD j 0).natAbs < st.nextVar) :
    BoundedState (counterLoop k d none rest prev st).2 := by
  induction rest generalizing prev st with
  | nil => exact hb
  | cons v rest ih =>
    rw [counterLoop_cons_none]
    have hv : v.natAbs < st.nextVar := hrest v (List.mem_cons_self v rest)
    have hnewS : ∀ j < k, ((newVars k st).1.getD j 0).natAbs = st.nextVar + j :=
      fun j hj => newVars_getD_natAbs k st hj
    have hb₂ : BoundedState (orGate d [v, prev.getD 0 0] ((newVars k st).1.getD 0 0)
        (newVars k st).2) := by
      intro c hc l hl
      simp only [orGate_nextVar, newVars_nextVar]
      rw [mem_orGate2] at hc
      rcases hc with hc | ⟨_, (rfl | rfl)⟩ | ⟨_, rfl⟩
      · have := hb c (by simpa using hc) l hl
        omega
      · simp only [List.mem_cons, List.not_mem_nil, or_false] at hl
        rcases hl with rfl | rfl
        · simp only [Int.natAbs_neg]; omega
        · rw [hnewS 0 hk]; omega
      · simp only [List.mem_cons, List.not_mem_nil, or_false] at hl
        rcases hl with rfl | rfl
        · simp only [Int.natAbs_neg]
          have := hprev 0 hk; omega
        · rw [hnewS 0 hk]; omega
      · simp only [List.mem_cons, List.not_mem_nil, or_false] at hl
        rcases hl with rfl | rfl | rfl
        · simp only [Int.natAbs_neg]
          rw [hnewS 0 hk]; omega
        · omega
        · have := hprev 0 hk; omega
    have hb₃ : BoundedState (counterInner d v prev (newVars k st).1
        ((List.range k).drop 1)
        (orGate d [v, prev.getD 0 0] ((newVars k st).1.getD 0 0) (newVars k st).2)) := by
      refine counterInner_bounded _ _ _ _ _ _ hb₂ ?_ ?_
      · simp only [orGate_nextVar, newVars_nextVar]; omega
      · intro j hj
        rw [mem_range_drop_one] at hj
        simp only [orGate_nextVar, newVars_nextVar]
        have h1 := hprev (j - 1) (by omega)
        have h2 := hprev j hj.2
        rw [hnewS j hj.2]
        exact ⟨by omega, by omega, by omega⟩
    refine ih _ _ ?_ hb₃ ?_ ?_
    · simp only [counterInner_nextVar, orGate_nextVar, newVars_nextVar]; omega
    · intro l hl
      have := hrest l (List.mem_cons_of_mem v hl)
      simp only [counterInner_nextVar, orGate_nextVar, newVars_nextVar]; omega
    · intro j hj
      simp only [counterInner_nextVar, orGate_nextVar, newVars_nextVar]
      rw [hnewS j hj]
      omega

theorem counterLoop_row (k : Nat) (d : Direction)
    (rest prev : List Int) (st : EncState)
    (hk : 1 ≤ k) (hN : 1 ≤ st.nextVar)
    (hlen : prev.length = k)
    (hprev : ∀ j < k, 0 < prev.getD j 0 ∧ (prev.getD j 0).natAbs < st.nextVar) :
    (counterLoop k d none rest prev st).1.length = k ∧
    ∀ j < k, 0 < (counterLoop k d none rest prev st).1.getD j 0 ∧
      ((counterLoop k d none rest prev st).1.getD j 0).natAbs <
        (counterLoop k d none rest prev st).2.nextVar := by
  induction rest generalizing prev st with
  | nil =>
    refine ⟨hlen, fun j hj => ⟨(hprev j hj).1, ?_⟩⟩
    exact (hprev j hj).2
  | cons v rest ih =>
    rw [counterLoop_cons_none]
    refine ih _ _ ?_ (by simp) ?_
    · simp only [counterInner_nextVar, orGate_nextVar, newVars_nextVar]; omega
    · intro j hj
      constructor
      · exact newVars_getD_pos k st hN hj
      · simp only [counterInner_nextVar, orGate_nextVar, newVars_nextVar]
        rw [newVars_getD_natAbs k st hj]
        omega

theorem counterLoop_low {k : Nat} {d : Direction} (hd : d.fwd = true)
    {rest prev row : List Int} {st st' : EncState}
    (h : counterLoop k d none rest prev st = (row, st'))
    (hk : 1 ≤ k) (hN : 1 ≤ st.nextVar)
    (hrest : ∀ l ∈ rest, l ≠ 0)
    (hprev : ∀ j < k, 0 < prev.getD j 0)
    (σ : Nat → Bool)
    (hsat : ∀ c ∈ st'.clauses, clauseSat σ c = true)
    (done : List Int)
    (hlow : ∀ j < k, j + 1 ≤ cnt σ done → litVal σ (prev.getD j 0) = true) :
    ∀ j < k, j + 1 ≤ cnt σ (done ++ rest) → litVal σ (row.getD j 0) = true := by
  induction rest generalizing prev st done with
  | nil =>
    simp only [counterLoop, Prod.mk.injEq] at h
    obtain ⟨rfl, rfl⟩ := h
    simpa using hlow
  | cons v rest ih =>
    rw [counterLoop_cons_none] at h
    have hv : v ≠ 0 := hrest v (List.mem_cons_self v rest)
    set newS := (newVars k st).1 with hnewS
    set st₂ := orGate d [v, prev.getD 0 0] (newS.getD 0 0) (newVars k st).2 with hst₂
    set st₃ := counterInner d v prev newS ((List.range k).drop 1) st₂ with hst₃
    have hmem₃ : ∀ c : Clause, c ∈ st₃.clauses → clauseSat σ c = true := by
      intro c hc
      refine hsat c ?_
      have := counterLoop_mem k d none rest newS st₃ hc
      rw [h] at this
      exact this
    have hsat_or1 : clauseSat σ [-v, newS.getD 0 0] = true := by
      refine hmem₃ _ (counterInner_mem _ _ _ _ _ _ ?_)
      rw [hst₂, mem_orGate2]
      exact Or.inr (Or.inl ⟨hd, Or.inl rfl⟩)
    have hsat_or2 : clauseSat σ [-(prev.getD 0 0), newS.getD 0 0] = true := by
      refine hmem₃ _ (counterInner_mem _ _ _ _ _ _ ?_)
      rw [hst₂, mem_orGate2]
      exact Or.inr (Or.inl ⟨hd, Or.inr rfl⟩)
    have hlow' : ∀ j < k, j + 1 ≤ cnt σ (done ++ [v]) →
        litVal σ (newS.getD j 0) = true := by
      intro j hj hcnt
      rw [cnt_append, cnt_singleton] at hcnt
      rcases Nat.eq_zero_or_pos j with rfl | hj1
      · cases hvv : litVal σ v with
        | true =>
          rw [clauseSat_pair, litVal_neg σ hv, hvv] at hsat_or1
          simpa using hsat_or1
        | false =>
          rw [hvv] at hcnt
          have hp0 : litVal σ (prev.getD 0 0) = true :=
            hlow 0 hk (by simpa using hcnt)
          rw [clauseSat_pair, litVal_neg σ (ne_of_gt (hprev 0 hk)), hp0] at hsat_or2
          simpa using hsat_or2
      · refine @counterInner_low d hd v prev newS ((List.range k).drop 1) st₂ ?_ hv ?_ σ hmem₃ j ?_ ?_
        · rw [hst₂]
          simp only [orGate_nextVar, newVars_nextVar]
          omega
        · intro i hi
          rw [mem_range_drop_one] at hi
          exact ⟨ne_of_gt (hprev (i - 1) (by omega)), ne_of_gt (hprev i hi.2)⟩
        · rw [mem_range_drop_one]
          exact ⟨hj1, hj⟩
        · cases hvv : litVal σ v with
          | true =>
            have hp : litVal σ (prev.getD (j - 1) 0) = true := by
              refine hlow (j - 1) (by omega) ?_
              rw [hvv] at hcnt
              simp only [Bool.toNat_true] at hcnt
              omega
            rw [hp]
            simp
          | false =>
            have hp : litVal σ (prev.getD j 0) = true := by
              refine hlow j hj ?_
              rw [hvv] at hcnt
              simpa using hcnt
            rw [hp]
            simp
    have hres := ih h (by rw [hst₃, hst₂]; simp only [counterInner_nextVar,
        orGate_nextVar, newVars_nextVar]; omega)
      (fun l hl => hrest l (List.mem_cons_of_mem v hl))
      (fun j hj => by rw [hnewS]; exact newVars_getD_pos k st hN hj)
      (done ++ [v]) hlow'
    intro j hj hcnt
    refine hres j hj ?_
    have heq : done ++ [v] ++ rest = done ++ v :: rest := by simp
    rw [heq]
    exact hcnt

theorem counterLoop_up {k : Nat} {d : Direction} (hd : d.bwd = true)
    {rest prev row : List Int} {st st' : EncState}
    (h : counterLoop k d none rest prev st = (row, st'))
    (hk : 1 ≤ k) (hN : 1 ≤ st.nextVar)
    (hprev : ∀ j < k, 0 < prev.getD j 0)
    (σ : Nat → Bool)
    (hsat : ∀ c ∈ st'.clauses, clauseSat σ c = true)
    (done : List Int)
    (hup : ∀ j < k, litVal σ (prev.getD j 0) = true → j + 1 ≤ cnt σ done) :
    ∀ j < k, litVal σ (row.getD j 0) = true → j + 1 ≤ cnt σ (done ++ rest) := by
  induction rest generalizing prev st done with
  | nil =>
    simp only [counterLoop, Prod.mk.injEq] at h
    obtain ⟨rfl, rfl⟩ := h
    simpa using hup
  | cons v rest ih =>
    rw [counterLoop_cons_none] at h
    set newS := (newVars k st).1 with hnewS
    set st₂ := orGate d [v, prev.getD 0 0] (newS.getD 0 0) (newVars k st).2 with hst₂
    set st₃ := counterInner d v prev newS ((List.range k).drop 1) st₂ with hst₃
    have hmem₃ : ∀ c : Clause, c ∈ st₃.clauses → clauseSat σ c = true := by
      intro c hc
      refine hsat c ?_
      have := counterLoop_mem k d none rest newS st₃ hc
      rw [h] at this
      exact this
    have hnewS0 : 0 < newS.getD 0 0 := by
      rw [hnewS]; exact newVars_getD_pos k st hN hk
    have hsat_or : clauseSat σ [-(newS.getD 0 0), v, prev.getD 0 0] = true := by
      refine hmem₃ _ (counterInner_mem _ _ _ _ _ _ ?_)
      rw [hst₂, mem_orGate2]
      exact Or.inr (Or.inr ⟨hd, rfl⟩)
    have hup' : ∀ j < k, litVal σ (newS.getD j 0) = true →
        j + 1 ≤ cnt σ (done ++ [v]) := by
      intro j hj hval
      rw [cnt_append, cnt_singleton]
      rcases Nat.eq_zero_or_pos j with rfl | hj1
      · rw [clauseSat_triple, litVal_neg σ (ne_of_gt hnewS0), hval] at hsat_or
        simp only [Bool.not_true, Bool.false_or] at hsat_or
        rw [Bool.or_eq_true] at hsat_or
        rcases hsat_or with hvv | hp0
        · rw [hvv]; simp
        · have := hup 0 hk hp0
          omega
      · have hstep := @counterInner_up d hd v prev newS ((List.range k).drop 1) st₂
          (by rw [hst₂]; simp only [orGate_nextVar, newVars_nextVar]; omega)
          (fun i hi => by
            rw [mem_range_drop_one] at hi
            refine ⟨ne_of_gt (hprev (i - 1) (by omega)), ne_of_gt (hprev i hi.2), ?_⟩
            rw [hnewS]
            exact ne_of_gt (newVars_getD_pos k st hN hi.2))
          σ hmem₃ j (by rw [mem_range_drop_one]; exact ⟨hj1, hj⟩) hval
        rw [Bool.or_eq_true] at hstep
        rcases hstep with hand | hp
        · rw [Bool.and_eq_true] at hand
          have := hup (j - 1) (by omega) hand.2
          rw [hand.1]
          simp only [Bool.toNat_true]
          omega
        · have := hup j hj hp
          omega
    have hres := ih h (by rw [hst₃, hst₂]; simp only [counterInner_nextVar,
        orGate_nextVar, newVars_nextVar]; omega)
      (fun j hj => by rw [hnewS]; exact newVars_getD_pos k st hN hj)
      (done ++ [v]) hup'
    intro j hj hval
    have := hres j hj hval
    have heq : done ++ [v] ++ rest = done ++ v :: rest := by simp
    rw [heq] at this
    exact this

theorem canonStep (b : Bool) (c j : Nat) :
    decide (j + 1 ≤ c + b.toNat) = ((b && decide (j ≤ c)) || decide (j + 1 ≤ c)) := by
  cases b <;> by_cases h1 : j ≤ c <;> by_cases h2 : j + 1 ≤ c <;>
    simp_all <;> omega

theorem counterLoop_ext {k : Nat} {d : Direction}
    {rest prev row : List Int} {st st' : EncState}
    (h : counterLoop k d none rest prev st = (row, st'))
    (hk : 1 ≤ k) (hN : 1 ≤ st.nextVar)
    (hb : BoundedState st)
    (hrest : ∀ l ∈ rest, l ≠ 0 ∧ l.natAbs < st.nextVar)
    (hprev : ∀ j < k, 0 < prev.getD j 0 ∧ (prev.getD j 0).natAbs < st.nextVar)
    (σ₀ : Nat → Bool) (done : List Int)
    (hdone : ∀ l ∈ done, l.natAbs < st.nextVar)
    (hcan : ∀ j < k, litVal σ₀ (prev.getD j 0) = decide (j + 1 ≤ cnt σ₀ done)) :
    ∃ σ, agreeBelow st.nextVar σ σ₀ ∧
      (∀ c ∈ st'.clauses, c ∈ st.clauses ∨ clauseSat σ c = true) ∧
      (∀ j < k, litVal σ (row.getD j 0) = decide (j + 1 ≤ cnt σ₀ (done ++ rest))) := by
  induction rest generalizing prev st σ₀ done with
  | nil =>
    simp only [counterLoop, Prod.mk.injEq] at h
    obtain ⟨rfl, rfl⟩ := h
    exact ⟨σ₀, fun m _ => rfl, fun c hc => Or.inl hc, by simpa using hcan⟩
  | cons v rest ih =>
    rw [counterLoop_cons_none] at h
    obtain ⟨hv0, hvb⟩ := hrest v (List.mem_cons_self v rest)
    set N := st.nextVar with hNdef
    set newS := (newVars k st).1 with hnewS
    set st₂ := orGate d [v, prev.getD 0 0] (newS.getD 0 0) (newVars k st).2 with hst₂
    set st₃ := counterInner d v prev newS ((List.range k).drop 1) st₂ with hst₃
    have hN₂ : st₂.nextVar = N + k := by
      rw [hst₂]; simp
    have hN₃ : st₃.nextVar = N + k + ((List.range k).drop 1).length := by
      rw [hst₃, counterInner_nextVar, hN₂]
    have hN₃ge : N + k ≤ st₃.nextVar := by omega
    set σ₁ : Nat → Bool := fun n =>
      if N ≤ n ∧ n < N + k then decide (n - N + 1 ≤ cnt σ₀ (done ++ [v]))
      else σ₀ n with hσ₁
    have hA : agreeBelow N σ₁ σ₀ := by
      intro m hm
      simp only [hσ₁]
      rw [if_neg (by omega)]
    have hvv : litVal σ₁ v = litVal σ₀ v := litVal_agree hA hvb
    have hprevval : ∀ j < k, litVal σ₁ (prev.getD j 0) = litVal σ₀ (prev.getD j 0) :=
      fun j hj => litVal_agree hA (hprev j hj).2
    have hnewSb : ∀ j < k, (newS.getD j 0).natAbs = N + j := by
      intro j hj
      rw [hnewS]
      exact newVars_getD_natAbs k st hj
    have hnewSpos : ∀ j < k, 0 < newS.getD j 0 := by
      intro j hj
      rw [hnewS]
      exact newVars_getD_pos k st hN hj
    have hnewSval : ∀ j < k, litVal σ₁ (newS.getD j 0) =
        decide (j + 1 ≤ cnt σ₀ (done ++ [v])) := by
      intro j hj
      rw [hnewS, newVars_getD k st j hj, litVal_ofNat σ₁ (st.nextVar + j) (by omega)]
      simp only [hσ₁]
      rw [if_pos ⟨by omega, by omega⟩]
      have harith : st.nextVar + j - N = j := by omega
      rw [harith]
    have hcnt1 : cnt σ₀ (done ++ [v]) = cnt σ₀ done + (litVal σ₀ v).toNat := by
      rw [cnt_append, cnt_singleton]
    -- extend over the AND-auxiliaries of this row
    obtain ⟨σ₂, hagree₂, hmemsat₂⟩ :=
      @counterInner_ext d v prev newS ((List.range k).drop 1) st₂
      (by omega)
      ⟨hv0, by omega⟩
      (by
        intro j hj
        rw [mem_range_drop_one] at hj
        obtain ⟨g1, g1b⟩ := hprev (j - 1) (by omega)
        obtain ⟨g2, g2b⟩ := hprev j hj.2
        refine ⟨⟨ne_of_gt g1, by omega⟩, ⟨ne_of_gt g2, by omega⟩, ?_⟩
        refine ⟨ne_of_gt (hnewSpos j hj.2), ?_⟩
        rw [hnewSb j hj.2, hN₂]
        omega)
      σ₁
      (by
        intro j hj
        rw [mem_range_drop_one] at hj
        rw [hnewSval j hj.2, hvv, hprevval (j - 1) (by omega), hprevval j hj.2,
          hcan (j - 1) (by omega), hcan j hj.2, hcnt1]
        have harith : j - 1 + 1 = j := by omega
        rw [harith]
        exact canonStep (litVal σ₀ v) (cnt σ₀ done) j)
    rw [hN₂] at hagree₂
    -- boundedness of the intermediate states
    have hb₂ : BoundedState st₂ := by
      intro c hc l hl
      rw [hN₂]
      rw [hst₂, mem_orGate2] at hc
      rcases hc with hc | ⟨_, (rfl | rfl)⟩ | ⟨_, rfl⟩
      · have := hb c (by simpa using hc) l hl
        omega
      · simp only [List.mem_cons, List.not_mem_nil, or_false] at hl
        rcases hl with rfl | rfl
        · simp only [Int.natAbs_neg]; omega
        · rw [hnewSb 0 hk]; omega
      · simp only [List.mem_cons, List.not_mem_nil, or_false] at hl
        rcases hl with rfl | rfl
        · simp only [Int.natAbs_neg]
          have := (hprev 0 hk).2; omega
        · rw [hnewSb 0 hk]; omega
      · simp only [List.mem_cons, List.not_mem_nil, or_false] at hl
        rcases hl with rfl | rfl | rfl
        · simp only [Int.natAbs_neg]
          rw [hnewSb 0 hk]; omega
        · omega
        · have := (hprev 0 hk).2; omega
    have hb₃ : BoundedState st₃ := by
      rw [hst₃]
      refine counterInner_bounded _ _ _ _ _ _ hb₂ (by rw [hN₂]; omega) ?_
      intro j hj
      rw [mem_range_drop_one] at hj
      rw [hN₂]
      have g1 := (hprev (j - 1) (by omega)).2
      have g2 := (hprev j hj.2).2
      rw [hnewSb j hj.2]
      exact ⟨by omega, by omega, by omega⟩
    -- recurse over the remaining inputs
    obtain ⟨σ, hagree₃, hmemsat₃, hrow⟩ := @ih newS st₃ h (by omega) hb₃
      (by
        intro l hl
        obtain ⟨g0, gb⟩ := hrest l (List.mem_cons_of_mem v hl)
        exact ⟨g0, by omega⟩)
      (by
        intro j hj
        refine ⟨hnewSpos j hj, ?_⟩
        rw [hnewSb j hj]
        omega)
      σ₂ (done ++ [v])
      (by
        intro l hl
        rw [List.mem_append] at hl
        rcases hl with hl | hl
        · have := hdone l hl; omega
        · simp only [List.mem_cons, List.not_mem_nil, or_false] at hl
          subst hl
          omega)
      (by
        intro j hj
        have e1 : litVal σ₂ (newS.getD j 0) = litVal σ₁ (newS.getD j 0) := by
          refine litVal_agree hagree₂ ?_
          rw [hnewSb j hj]
          omega
        have e2 : cnt σ₂ (done ++ [v]) = cnt σ₀ (done ++ [v]) := by
          have e2a : cnt σ₂ (done ++ [v]) = cnt σ₁ (done ++ [v]) := by
            refine cnt_agree hagree₂ ?_
            intro l hl
            rw [List.mem_append] at hl
            rcases hl with hl | hl
            · have := hdone l hl; omega
            · simp only [List.mem_cons, List.not_mem_nil, or_false] at hl
              subst hl
              omega
          have e2b : cnt σ₁ (done ++ [v]) = cnt σ₀ (done ++ [v]) := by
            refine cnt_agree hA ?_
            intro l hl
            rw [List.mem_append] at hl
            rcases hl with hl | hl
            · exact hdone l hl
            · simp only [List.mem_cons, List.not_mem_nil, or_false] at hl
              subst hl
              exact hvb
          rw [e2a, e2b]
        rw [e1, e2, hnewSval j hj])
    have hagreeN : agreeBelow N σ σ₀ := by
      have g1 : agreeBelow N σ σ₂ := agreeBelow_mono hagree₃ (by omega)
      have g2 : agreeBelow N σ₂ σ₁ := agreeBelow_mono hagree₂ (by omega)
      exact agreeBelow_trans g1 (agreeBelow_trans g2 hA (le_refl _)) (le_refl _)
    refine ⟨σ, hagreeN, ?_, ?_⟩
    · intro c hc
      rcases hmemsat₃ c hc with hc₃ | hs
      · rcases hmemsat₂ c hc₃ with hc₂ | hs₂
        · -- clause present before the inner loop: old or an or-gate emission
          have hagree₁k : agreeBelow (N + k) σ σ₁ := by
            have g1 : agreeBelow (N + k) σ σ₂ := agreeBelow_mono hagree₃ (by omega)
            exact agreeBelow_trans g1 hagree₂ (le_refl _)
          rw [hst₂, mem_orGate2] at hc₂
          rcases hc₂ with hc₁ | ⟨_, (rfl | rfl)⟩ | ⟨_, rfl⟩
          · exact Or.inl (by simpa using hc₁)
          · -- [-v, newS₀]
            refine Or.inr ?_
            rw [clauseSat_agree hagree₁k (by
              intro l hl
              simp only [List.mem_cons, List.not_mem_nil, or_false] at hl
              rcases hl with rfl | rfl
              · simp only [Int.natAbs_neg]; omega
              · rw [hnewSb 0 hk]; omega)]
            rw [clauseSat_pair, litVal_neg σ₁ hv0, hvv, hnewSval 0 hk, hcnt1]
            cases hv' : litVal σ₀ v <;>
              simp only [Bool.not_true, Bool.not_false, Bool.true_or,
                Bool.false_or, Bool.toNat_true, decide_eq_true_eq]
            omega
          · -- [-(prev₀), newS₀]
            refine Or.inr ?_
            rw [clauseSat_agree hagree₁k (by
              intro l hl
              simp only [List.mem_cons, List.not_mem_nil, or_false] at hl
              rcases hl with rfl | rfl
              · simp only [Int.natAbs_neg]
                have := (hprev 0 hk).2; omega
              · rw [hnewSb 0 hk]; omega)]
            rw [clauseSat_pair, litVal_neg σ₁ (ne_of_gt (hprev 0 hk).1),
              hprevval 0 hk, hcan 0 hk, hnewSval 0 hk, hcnt1]
            by_cases hcd : 1 ≤ cnt σ₀ done
            · rw [decide_eq_true hcd]
              have : (1 ≤ cnt σ₀ done + (litVal σ₀ v).toNat) := by omega
              rw [decide_eq_true this]
              simp
            · have : decide (1 ≤ cnt σ₀ done) = false := by
                simpa using hcd
              rw [this]
              simp
          · -- [-(newS₀), v, prev₀]
            refine Or.inr ?_
            rw [clauseSat_agree hagree₁k (by
              intro l hl
              simp only [List.mem_cons, List.not_mem_nil, or_false] at hl
              rcases hl with rfl | rfl | rfl
              · simp only [Int.natAbs_neg]
                rw [hnewSb 0 hk]; omega
              · omega
              · have := (hprev 0 hk).2; omega)]
            rw [clauseSat_triple, litVal_neg σ₁ (ne_of_gt (hnewSpos 0 hk)),
              hnewSval 0 hk, hvv, hprevval 0 hk, hcan 0 hk, hcnt1]
            cases hv' : litVal σ₀ v with
            | true => simp
            | false =>
              simp only [Bool.toNat_false, Nat.add_zero, Nat.zero_add, Bool.false_or]
              cases hd' : decide (1 ≤ cnt σ₀ done) <;> simp [hd']
        · -- satisfied by the inner extension; transport along the agreement
          refine Or.inr ?_
          rw [clauseSat_agree (agreeBelow_mono hagree₃ (le_refl _)) (hb₃ c hc₃)]
          exact hs₂
      · exact Or.inr hs
    · intro j hj
      rw [hrow j hj]
      congr 1
      have e3 : cnt σ₂ (done ++ [v] ++ rest) = cnt σ₀ (done ++ [v] ++ rest) := by
        have bound : ∀ l ∈ done ++ [v] ++ rest, l.natAbs < N := by
          intro l hl
          simp only [List.mem_append, List.mem_cons, List.not_mem_nil, or_false] at hl
          rcases hl with (hl | rfl) | hl
          · exact hdone l hl
          · exact hvb
          · exact (hrest l (List.mem_cons_of_mem v hl)).2
        have e3a : cnt σ₂ (done ++ [v] ++ rest) = cnt σ₁ (done ++ [v] ++ rest) :=
          cnt_agree hagree₂ (fun l hl => by have := bound l hl; omega)
        have e3b : cnt σ₁ (done ++ [v] ++ rest) = cnt σ₀ (done ++ [v] ++ rest) :=
          cnt_agree hA bound
        rw [e3a, e3b]
      rw [e3]
      congr 1
      simp

/-! ## The assembled counter -/

theorem newVars_fst_eq (k : Nat) (st : EncState) :
    (newVars k st).1 = (List.range k).map (fun i => ((st.nextVar + i : Nat) : Int)) := by
  induction k generalizing st with
  | zero => rfl
  | succ k ih =>
    rw [List.range_succ_eq_map]
    simp only [newVars, newVar_fst, List.map_cons, List.map_map, Nat.add_zero,
      List.cons.injEq]
    refine ⟨trivial, ?_⟩
    rw [ih]
    simp only [newVar_nextVar]
    refine List.map_congr_left ?_
    intro i _
    simp only [Function.comp_apply]
    congr 1
    omega

theorem counter_unfold (v : Int) (rest : List Int) (k : Nat) (d : Direction)
    (st : EncState) (hk : k ≠ 0) :
    encode_cardinality_constraint (v :: rest) k d none st =
      some (counterLoop k d none rest (newVars k st).1
        (((newVars k st).1.drop 1).foldl (fun st s => setZero s st)
          (equalGate d v ((newVars k st).1.getD 0 0) (newVars k st).2))) := by
  simp [encode_cardinality_constraint, hk, outShort]

theorem setZero_fold_clauses (l : List Int) (st : EncState) {x : Clause} :
    x ∈ (l.foldl (fun st s => setZero s st) st).clauses ↔
      x ∈ st.clauses ∨ ∃ s ∈ l, x = [-s] := by
  simp only [setZero]
  exact foldl_addClause_clauses (fun s => [-s]) l st

theorem setZero_fold_nextVar (l : List Int) (st : EncState) :
    (l.foldl (fun st s => setZero s st) st).nextVar = st.nextVar := by
  simp only [setZero]
  exact foldl_addClause_nextVar (fun s => [-s]) l st

theorem newVars_drop_one_mem (k : Nat) (st : EncState) {j : Nat}
    (hj1 : 1 ≤ j) (hjk : j < k) :
    (newVars k st).1.getD j 0 ∈ (newVars k st).1.drop 1 := by
  rw [newVars_getD k st j hjk, newVars_fst_eq, ← List.map_drop]
  rw [List.mem_map]
  exact ⟨j, mem_range_drop_one.mpr ⟨hj1, hjk⟩, rfl⟩

theorem decide_one_le_toNat (b : Bool) : decide (1 ≤ b.toNat) = b := by
  cases b <;> simp

theorem counter_none_of_k_zero (vars : List Int) (d : Direction)
    (out : Option (List Int)) (st : EncState) :
    encode_cardinality_constraint vars 0 d out st = none := by
  simp [encode_cardinality_constraint]

theorem counter_some_elim {vars : List Int} {k : Nat} {d : Direction}
    {st : EncState} {row : List Int} {st' : EncState}
    (h : encode_cardinality_constraint vars k d none st = some (row, st')) :
    k ≠ 0 ∧ vars ≠ [] := by
  constructor
  · rintro rfl
    rw [counter_none_of_k_zero] at h
    cases h
  · rintro rfl
    by_cases hk : k = 0 <;> simp [encode_cardinality_constraint, hk, outShort] at h

theorem counter_next_ge {vars : List Int} {k : Nat} {d : Direction}
    {st : EncState} {row : List Int} {st' : EncState}
    (h : encode_cardinality_constraint vars k d none st = some (row, st')) :
    st.nextVar ≤ st'.nextVar := by
  obtain ⟨hk, hne⟩ := counter_some_elim h
  rcases vars with _ | ⟨v, rest⟩
  · exact absurd rfl hne
  · rw [counter_unfold v rest k d st hk] at h
    have h' := Option.some.inj h
    have := counterLoop_nextVar_ge k d none rest (newVars k st).1
      (((newVars k st).1.drop 1).foldl (fun st s => setZero s st)
        (equalGate d v ((newVars k st).1.getD 0 0) (newVars k st).2))
    rw [h'] at this
    rw [setZero_fold_nextVar, equalGate_nextVar, newVars_nextVar] at this
    have h2 : (row, st').2.nextVar = st'.nextVar := rfl
    rw [h2] at this
    omega

theorem counter_mem {vars : List Int} {k : Nat} {d : Direction}
    {st : EncState} {row : List Int} {st' : EncState}
    (h : encode_cardinality_constraint vars k d none st = some (row, st'))
    {c : Clause} (hc : c ∈ st.clauses) : c ∈ st'.clauses := by
  obtain ⟨hk, hne⟩ := counter_some_elim h
  rcases vars with _ | ⟨v, rest⟩
  · exact absurd rfl hne
  · rw [counter_unfold v rest k d st hk] at h
    have h' := Option.some.inj h
    have hcB : c ∈ (((newVars k st).1.drop 1).foldl (fun st s => setZero s st)
        (equalGate d v ((newVars k st).1.getD 0 0) (newVars k st).2)).clauses := by
      rw [setZero_fold_clauses]
      refine Or.inl ?_
      rw [mem_equalGate]
      exact Or.inl (by simpa using hc)
    have := counterLoop_mem k d none rest (newVars k st).1 _ hcB
    rw [h'] at this
    exact this

theorem counter_rows {vars : List Int} {k : Nat} {d : Direction}
    {st : EncState} {row : List Int} {st' : EncState}
    (h : encode_cardinality_constraint vars k d none st = some (row, st'))
    (hN : 1 ≤ st.nextVar) :
    row.length = k ∧ ∀ j < k, 0 < row.getD j 0 ∧
      (row.getD j 0).natAbs < st'.nextVar := by
  obtain ⟨hk, hne⟩ := counter_some_elim h
  rcases vars with _ | ⟨v, rest⟩
  · exact absurd rfl hne
  · rw [counter_unfold v rest k d st hk] at h
    have h' := Option.some.inj h
    have hres := counterLoop_row k d rest (newVars k st).1
      (((newVars k st).1.drop 1).foldl (fun st s => setZero s st)
        (equalGate d v ((newVars k st).1.getD 0 0) (newVars k st).2))
      (by omega)
      (by rw [setZero_fold_nextVar, equalGate_nextVar, newVars_nextVar]; omega)
      (newVars_length k st)
      (by
        intro j hj
        rw [setZero_fold_nextVar, equalGate_nextVar, newVars_nextVar]
        exact ⟨newVars_getD_pos k st hN hj, by rw [newVars_getD_natAbs k st hj]; omega⟩)
    rw [h'] at hres
    exact hres

theorem counter_low {vars : List Int} {k : Nat} {d : Direction} (hd : d.fwd = true)
    {st : EncState} {row : List Int} {st' : EncState}
    (h : encode_cardinality_constraint vars k d none st = some (row, st'))
    (hN : 1 ≤ st.nextVar)
    (hlits : ∀ l ∈ vars, l ≠ 0)
    (σ : Nat → Bool)
    (hsat : ∀ c ∈ st'.clauses, clauseSat σ c = true) :
    ∀ j < k, j + 1 ≤ cnt σ vars → litVal σ (row.getD j 0) = true := by
  obtain ⟨hk, hne⟩ := counter_some_elim h
  rcases vars with _ | ⟨v, rest⟩
  · exact absurd rfl hne
  · rw [counter_unfold v rest k d st hk] at h
    have h' := Option.some.inj h
    set prevS := (newVars k st).1 with hprevS
    set stB := ((newVars k st).1.drop 1).foldl (fun st s => setZero s st)
      (equalGate d v ((newVars k st).1.getD 0 0) (newVars k st).2) with hstB
    have hmemB : ∀ c : Clause, c ∈ stB.clauses → clauseSat σ c = true := by
      intro c hc
      refine hsat c ?_
      have := counterLoop_mem k d none rest prevS stB hc
      rw [h'] at this
      exact this
    have hv0 : v ≠ 0 := hlits v (List.mem_cons_self v rest)
    have hlow0 : ∀ j < k, j + 1 ≤ cnt σ [v] → litVal σ (prevS.getD j 0) = true := by
      intro j hj hjcnt
      have hcnt1 : cnt σ [v] ≤ 1 := by
        rw [cnt_singleton]
        cases litVal σ v <;> simp
      rcases Nat.eq_zero_or_pos j with rfl | hj1
      · have hveq : litVal σ v = true := by
          rw [cnt_singleton] at hjcnt
          cases hvv : litVal σ v
          · rw [hvv] at hjcnt; simp at hjcnt
          · rfl
        have hcl : clauseSat σ [-v, prevS.getD 0 0] = true := by
          refine hmemB _ ?_
          rw [hstB, setZero_fold_clauses]
          refine Or.inl ?_
          rw [mem_equalGate]
          exact Or.inr (Or.inl ⟨hd, rfl⟩)
        rw [clauseSat_pair, litVal_neg σ hv0, hveq] at hcl
        simpa using hcl
      · omega
    have hres := counterLoop_low hd h' (by omega)
      (by rw [hstB, setZero_fold_nextVar, equalGate_nextVar, newVars_nextVar]; omega)
      (fun l hl => hlits l (List.mem_cons_of_mem v hl))
      (fun j hj => by rw [hprevS]; exact newVars_getD_pos k st hN hj)
      σ hsat [v] hlow0
    intro j hj hjcnt
    exact hres j hj (by simpa using hjcnt)

theorem counter_up {vars : List Int} {k : Nat} {d : Direction} (hd : d.bwd = true)
    {st : EncState} {row : List Int} {st' : EncState}
    (h : encode_cardinality_constraint vars k d none st = some (row, st'))
    (hN : 1 ≤ st.nextVar)
    (hlits : ∀ l ∈ vars, l ≠ 0)
    (σ : Nat → Bool)
    (hsat : ∀ c ∈ st'.clauses, clauseSat σ c = true) :
    ∀ j < k, litVal σ (row.getD j 0) = true → j + 1 ≤ cnt σ vars := by
  obtain ⟨hk, hne⟩ := counter_some_elim h
  rcases vars with _ | ⟨v, rest⟩
  · exact absurd rfl hne
  · rw [counter_unfold v rest k d st hk] at h
    have h' := Option.some.inj h
    set prevS := (newVars k st).1 with hprevS
    set stB := ((newVars k st).1.drop 1).foldl (fun st s => setZero s st)
      (equalGate d v ((newVars k st).1.getD 0 0) (newVars k st).2) with hstB
    have hmemB : ∀ c : Clause, c ∈ stB.clauses → clauseSat σ c = true := by
      intro c hc
      refine hsat c ?_
      have := counterLoop_mem k d none rest prevS stB hc
      rw [h'] at this
      exact this
    have hv0 : v ≠ 0 := hlits v (List.mem_cons_self v rest)
    have hup0 : ∀ j < k, litVal σ (prevS.getD j 0) = true → j + 1 ≤ cnt σ [v] := by
      intro j hj hval
      rcases Nat.eq_zero_or_pos j with rfl | hj1
      · have hcl : clauseSat σ [v, -(prevS.getD 0 0)] = true := by
          refine hmemB _ ?_
          rw [hstB, setZero_fold_clauses]
          refine Or.inl ?_
          rw [mem_equalGate]
          exact Or.inr (Or.inr ⟨hd, rfl⟩)
        have hp0 : prevS.getD 0 0 ≠ 0 := ne_of_gt (newVars_getD_pos k st hN (by omega))
        rw [clauseSat_pair, litVal_neg σ hp0, hval] at hcl
        simp only [Bool.not_true, Bool.or_false] at hcl
        rw [cnt_singleton, hcl]
        simp
      · have hcl : clauseSat σ [-(prevS.getD j 0)] = true := by
          refine hmemB _ ?_
          rw [hstB, setZero_fold_clauses]
          exact Or.inr ⟨prevS.getD j 0, newVars_drop_one_mem k st hj1 hj, rfl⟩
        have hpj : prevS.getD j 0 ≠ 0 := ne_of_gt (newVars_getD_pos k st hN hj)
        simp only [clauseSat, List.any_cons, List.any_nil, Bool.or_false] at hcl
        rw [litVal_neg σ hpj, hval] at hcl
        simp at hcl
    have hres := counterLoop_up hd h' (by omega)
      (by rw [hstB, setZero_fold_nextVar, equalGate_nextVar, newVars_nextVar]; omega)
      (fun j hj => by rw [hprevS]; exact newVars_getD_pos k st hN hj)
      σ hsat [v] hup0
    intro j hj hval
    have := hres j hj hval
    simpa using this

theorem counter_bounded {vars : List Int} {k : Nat} {d : Direction}
    {st : EncState} {row : List Int} {st' : EncState}
    (h : encode_cardinality_constraint vars k d none st = some (row, st'))
    (hN : 1 ≤ st.nextVar)
    (hb : BoundedState st)
    (hlits : ∀ l ∈ vars, l.natAbs < st.nextVar) :
    BoundedState st' := by
  obtain ⟨hk, hne⟩ := counter_some_elim h
  rcases vars with _ | ⟨v, rest⟩
  · exact absurd rfl hne
  · rw [counter_unfold v rest k d st hk] at h
    have h' := Option.some.inj h
    set prevS := (newVars k st).1 with hprevS
    set stB := ((newVars k st).1.drop 1).foldl (fun st s => setZero s st)
      (equalGate d v ((newVars k st).1.getD 0 0) (newVars k st).2) with hstB
    have hNB : stB.nextVar = st.nextVar + k := by
      rw [hstB, setZero_fold_nextVar, equalGate_nextVar, newVars_nextVar]
    have hvb : v.natAbs < st.nextVar := hlits v (List.mem_cons_self v rest)
    have hbB : BoundedState stB := by
      intro c hc l hl
      rw [hNB]
      rw [hstB, setZero_fold_clauses] at hc
      rcases hc with hc | ⟨s, hs, rfl⟩
      · rw [mem_equalGate] at hc
        rcases hc with hc | ⟨_, rfl⟩ | ⟨_, rfl⟩
        · have := hb c (by simpa using hc) l hl
          omega
        · simp only [List.mem_cons, List.not_mem_nil, or_false] at hl
          rcases hl with rfl | rfl
          · simp only [Int.natAbs_neg]; omega
          · rw [newVars_getD_natAbs k st (by omega)]; omega
        · simp only [List.mem_cons, List.not_mem_nil, or_false] at hl
          rcases hl with rfl | rfl
          · omega
          · simp only [Int.natAbs_neg]
            rw [newVars_getD_natAbs k st (by omega)]; omega
      · simp only [List.mem_cons, List.not_mem_nil, or_false] at hl
        subst hl
        rw [newVars_fst_eq, ← List.map_drop, List.mem_map] at hs
        obtain ⟨i, hi, rfl⟩ := hs
        rw [mem_range_drop_one] at hi
        simp only [Int.natAbs_neg, Int.natAbs_ofNat]
        omega
    have hres := counterLoop_bounded k d rest prevS stB (by omega)
      (by rw [hNB]; omega) hbB
      (by
        intro l hl
        have := hlits l (List.mem_cons_of_mem v hl)
        rw [hNB]; omega)
      (by
        intro j hj
        rw [hNB, hprevS, newVars_getD_natAbs k st hj]
        omega)
    rw [h'] at hres
    exact hres

theorem counter_ext {vars : List Int} {k : Nat} {d : Direction}
    {st : EncState} {row : List Int} {st' : EncState}
    (h : encode_cardinality_constraint vars k d none st = some (row, st'))
    (hN : 1 ≤ st.nextVar)
    (hb : BoundedState st)
    (hlits : ∀ l ∈ vars, l ≠ 0 ∧ l.natAbs < st.nextVar)
    (σ₀ : Nat → Bool) :
    ∃ σ, agreeBelow st.nextVar σ σ₀ ∧
      (∀ c ∈ st'.clauses, c ∈ st.clauses ∨ clauseSat σ c = true) ∧
      (∀ j < k, litVal σ (row.getD j 0) = decide (j + 1 ≤ cnt σ₀ vars)) := by
  obtain ⟨hk, hne⟩ := counter_some_elim h
  rcases vars with _ | ⟨v, rest⟩
  · exact absurd rfl hne
  · rw [counter_unfold v rest k d st hk] at h
    have h' := Option.some.inj h
    obtain ⟨hv0, hvb⟩ := hlits v (List.mem_cons_self v rest)
    set N := st.nextVar with hNdef
    set prevS := (newVars k st).1 with hprevS
    set stB := ((newVars k st).1.drop 1).foldl (fun st s => setZero s st)
      (equalGate d v ((newVars k st).1.getD 0 0) (newVars k st).2) with hstB
    have hNB : stB.nextVar = N + k := by
      rw [hstB, setZero_fold_nextVar, equalGate_nextVar, newVars_nextVar]
    set σ₁ : Nat → Bool := fun n =>
      if N ≤ n ∧ n < N + k then decide (n - N + 1 ≤ cnt σ₀ [v])
      else σ₀ n with hσ₁
    have hA : agreeBelow N σ₁ σ₀ := by
      intro m hm
      simp only [hσ₁]
      rw [if_neg (by omega)]
    have hvv : litVal σ₁ v = litVal σ₀ v := litVal_agree hA hvb
    have hpb : ∀ j < k, (prevS.getD j 0).natAbs = N + j :=
      fun j hj => newVars_getD_natAbs k st hj
    have hppos : ∀ j < k, 0 < prevS.getD j 0 :=
      fun j hj => newVars_getD_pos k st hN hj
    have hpval : ∀ j < k, litVal σ₁ (prevS.getD j 0) =
        decide (j + 1 ≤ cnt σ₀ [v]) := by
      intro j hj
      rw [hprevS, newVars_getD k st j hj, litVal_ofNat σ₁ (st.nextVar + j) (by omega)]
      simp only [hσ₁]
      rw [if_pos ⟨by omega, by omega⟩]
      have harith : st.nextVar + j - N = j := by omega
      rw [harith]
    have hcv : cnt σ₀ [v] = (litVal σ₀ v).toNat := cnt_singleton σ₀ v
    have hbB : BoundedState stB := by
      intro c hc l hl
      rw [hNB]
      rw [hstB, setZero_fold_clauses] at hc
      rcases hc with hc | ⟨s, hs, rfl⟩
      · rw [mem_equalGate] at hc
        rcases hc with hc | ⟨_, rfl⟩ | ⟨_, rfl⟩
        · have := hb c (by simpa using hc) l hl
          omega
        · simp only [List.mem_cons, List.not_mem_nil, or_false] at hl
          rcases hl with rfl | rfl
          · simp only [Int.natAbs_neg]; omega
          · rw [hpb 0 (by omega)]; omega
        · simp only [List.mem_cons, List.not_mem_nil, or_false] at hl
          rcases hl with rfl | rfl
          · omega
          · simp only [Int.natAbs_neg]
            rw [hpb 0 (by omega)]; omega
      · simp only [List.mem_cons, List.not_mem_nil, or_false] at hl
        subst hl
        rw [newVars_fst_eq, ← List.map_drop, List.mem_map] at hs
        obtain ⟨i, hi, rfl⟩ := hs
        rw [mem_range_drop_one] at hi
        simp only [Int.natAbs_neg, Int.natAbs_ofNat]
        omega
    have hsatB : ∀ c ∈ stB.clauses, c ∈ st.clauses ∨ clauseSat σ₁ c = true := by
      intro c hc
      rw [hstB, setZero_fold_clauses] at hc
      rcases hc with hc | ⟨s, hs, rfl⟩
      · rw [mem_equalGate] at hc
        rcases hc with hc | ⟨_, rfl⟩ | ⟨_, rfl⟩
        · exact Or.inl (by simpa using hc)
        · refine Or.inr ?_
          rw [clauseSat_pair, litVal_neg σ₁ hv0, hvv, hpval 0 (by omega), hcv]
          simp only [Nat.zero_add, decide_one_le_toNat]
          cases litVal σ₀ v <;> simp
        · refine Or.inr ?_
          rw [clauseSat_pair, litVal_neg σ₁ (ne_of_gt (hppos 0 (by omega))),
            hvv, hpval 0 (by omega), hcv]
          simp only [Nat.zero_add, decide_one_le_toNat]
          cases litVal σ₀ v <;> simp
      · refine Or.inr ?_
        rw [newVars_fst_eq, ← List.map_drop, List.mem_map] at hs
        obtain ⟨i, hi, rfl⟩ := hs
        rw [mem_range_drop_one] at hi
        simp only [clauseSat, List.any_cons, List.any_nil, Bool.or_false]
        have hs0 : ((st.nextVar + i : Nat) : Int) ≠ 0 := by
          simp only [ne_eq, Int.natCast_eq_zero]
          omega
        rw [litVal_neg σ₁ hs0, litVal_ofNat σ₁ (st.nextVar + i) (by omega)]
        simp only [hσ₁]
        rw [if_pos ⟨by omega, by omega⟩]
        have harith : st.nextVar + i - N = i := by omega
        rw [harith]
        have hcle : cnt σ₀ [v] ≤ 1 := by
          rw [hcv]
          cases litVal σ₀ v <;> simp
        have hdec : decide (i + 1 ≤ cnt σ₀ [v]) = false := by
          simp only [decide_eq_false_iff_not]
          omega
        rw [hdec]
        rfl
    obtain ⟨σ, hagree₂, hmemsat₂, hrow⟩ := counterLoop_ext h'
      (by omega) (by rw [hNB]; omega) hbB
      (fun l hl => by
        obtain ⟨g0, gb⟩ := hlits l (List.mem_cons_of_mem v hl)
        exact ⟨g0, by rw [hNB]; omega⟩)
      (fun j hj => ⟨hppos j hj, by rw [hNB, hpb j hj]; omega⟩)
      σ₁ [v]
      (by
        intro l hl
        simp only [List.mem_cons, List.not_mem_nil, or_false] at hl
        subst hl
        rw [hNB]
        omega)
      (by
        intro j hj
        rw [hpval j hj]
        have hceq : cnt σ₁ [v] = cnt σ₀ [v] := by
          refine cnt_agree hA ?_
          intro l hl
          simp only [List.mem_cons, List.not_mem_nil, or_false] at hl
          subst hl
          exact hvb
        rw [hceq])
    rw [hNB] at hagree₂
    have hagreeN : agreeBelow N σ σ₀ :=
      agreeBelow_trans (agreeBelow_mono hagree₂ (by omega)) hA (le_refl _)
    refine ⟨σ, hagreeN, ?_, ?_⟩
    · intro c hc
      rcases hmemsat₂ c hc with hcB | hs
      · rcases hsatB c hcB with hcst | hsatc
        · exact Or.inl hcst
        · refine Or.inr ?_
          rw [clauseSat_agree hagree₂ (fun l hl => by
            have := hbB c hcB l hl
            rw [hNB] at this
            exact this)]
          exact hsatc
      · exact Or.inr hs
    · intro j hj
      rw [hrow j hj]
      have heq : ([v] ++ rest : List Int) = v :: rest := rfl
      have hceq : cnt σ₁ ([v] ++ rest) = cnt σ₀ (v :: rest) := by
        rw [heq]
        refine cnt_agree hA ?_
        intro l hl
        rcases List.mem_cons.mp hl with rfl | hl
        · exact hvb
        · exact (hlits l (List.mem_cons_of_mem v hl)).2
      rw [hceq]

/-! ## Claim theorems -/

/-- C1: for a nonempty input list and `k ≥ 1`, in every assignment satisfying
the clauses emitted by `encode_cardinality_constraint` with `Direction::Both`
and no `out` override, the `j`-th bit of the returned final row (`0 ≤ j < k`)
is true iff at least `j+1` of the inputs are true; moreover every truth
assignment of the inputs extends to an assignment of the auxiliary variables
satisfying all emitted clauses, under which the final row takes exactly these
values. -/
theorem counter_both_correct (lits : List Int) (k N : Nat) (row : List Int)
    (st' : EncState)
    (hN : 1 ≤ N)
    (hlits : ∀ l ∈ lits, l ≠ 0 ∧ l.natAbs < N)
    (h : encode_cardinality_constraint lits k .both none ⟨N, []⟩ = some (row, st')) :
    (∀ σ, satAll σ st'.clauses →
      ∀ j < k, litVal σ (row.getD j 0) = decide (j + 1 ≤ cnt σ lits)) ∧
    (∀ σ₀ : Nat → Bool, ∃ σ, agreeBelow N σ σ₀ ∧ satAll σ st'.clauses ∧
      ∀ j < k, litVal σ (row.getD j 0) = decide (j + 1 ≤ cnt σ₀ lits)) := by
  constructor
  · intro σ hsat j hj
    have hlow := counter_low (d := .both) rfl h hN (fun l hl => (hlits l hl).1) σ hsat
    have hup := counter_up (d := .both) rfl h hN (fun l hl => (hlits l hl).1) σ hsat
    cases hD : decide (j + 1 ≤ cnt σ lits) with
    | true =>
      exact hlow j hj (of_decide_eq_true hD)
    | false =>
      cases hlv : litVal σ (row.getD j 0) with
      | true => exact absurd (hup j hj hlv) (of_decide_eq_false hD)
      | false => rfl
  · intro σ₀
    obtain ⟨σ, hagree, hmemsat, hrow⟩ := counter_ext h hN
      (fun c hc => absurd hc (List.not_mem_nil c)) hlits σ₀
    refine ⟨σ, hagree, ?_, hrow⟩
    intro c hc
    rcases hmemsat c hc with hc0 | hs
    · exact absurd hc0 (List.not_mem_nil c)
    · exact hs

/-- C8: `encode_cardinality_constraint` aborts exactly when a precondition is
violated: `k = 0`, an empty literal sequence, or a supplied `out` row shorter
than `k`; under the preconditions it returns normally. -/
theorem encode_counter_panic_iff (vars : List Int) (k : Nat) (d : Direction)
    (out : Option (List Int)) (st : EncState) :
    encode_cardinality_constraint vars k d out st = none ↔
      k = 0 ∨ vars = [] ∨ ∃ os, out = some os ∧ os.length < k := by
  rcases out with _ | os
  · by_cases hk : k = 0
    · simp [encode_cardinality_constraint, hk]
    · cases vars <;> simp [encode_cardinality_constraint, hk, outShort]
  · by_cases hk : k = 0
    · simp [encode_cardinality_constraint, hk]
    · by_cases hlen : os.length < k
      · simp [encode_cardinality_constraint, hk, outShort, hlen]
      · cases vars <;> simp [encode_cardinality_constraint, hk, outShort, hlen]

/-! ## Counting input vectors -/

theorem getLastD_eq_getD (l : List Int) (d : Int) :
    l.getLastD d = l.getD (l.length - 1) d := by
  induction l with
  | nil => rfl
  | cons a t ih =>
    cases t with
    | nil => rfl
    | cons b t' =>
      have h1 : (a :: b :: t').getLastD d = (b :: t').getLastD d := by
        rw [List.getLastD_eq_getLast?, List.getLastD_eq_getLast?,
          List.getLast?_cons_cons]
      rw [h1, ih]
      rfl

theorem countP_range_eq_card (p : Nat → Bool) (n : Nat) :
    (List.range n).countP p =
      ((Finset.range n).filter (fun i => p i = true)).card := by
  induction n with
  | zero => simp
  | succ n ih =>
    rw [List.range_succ, List.countP_append, Finset.range_succ,
      Finset.filter_insert]
    by_cases h : p n = true
    · rw [if_pos h, Finset.card_insert_of_not_mem (by simp)]
      simp only [List.countP_cons, List.countP_nil, h, ih]
      simp
    · rw [if_neg h]
      simp only [List.countP_cons, List.countP_nil, ih]
      have hpn : (if p n = true then 1 else 0) = 0 := by simp [h]
      omega

theorem card_filter_fin_eq (n : Nat) (p : Nat → Bool) :
    ((Finset.range n).filter (fun m => p m = true)).card =
      ((Finset.univ : Finset (Fin n)).filter (fun i => p i.1 = true)).card := by
  refine (Finset.card_bij (fun (i : Fin n) _ => i.1) ?_ ?_ ?_).symm
  · intro i hi
    rw [Finset.mem_filter] at hi ⊢
    exact ⟨Finset.mem_range.mpr i.2, hi.2⟩
  · intro i _ i' _ h
    exact Fin.ext h
  · intro m hm
    rw [Finset.mem_filter, Finset.mem_range] at hm
    exact ⟨⟨m, hm.1⟩, Finset.mem_filter.mpr ⟨Finset.mem_univ _, hm.2⟩, rfl⟩

theorem cnt_inputLits {n : Nat} (σ : Nat → Bool) (u : Fin n → Bool)
    (hp : ∀ i : Fin n, σ (i.1 + 1) = u i) : cnt σ (inputLits n) = cntF u := by
  unfold cnt inputLits cntF
  rw [List.countP_map]
  have h1 : List.countP ((fun l => litVal σ l) ∘ (fun i : Nat => ((i + 1 : Nat) : Int)))
      (List.range n) = List.countP (fun i => σ (i + 1)) (List.range n) := by
    refine List.countP_congr ?_
    intro i _
    simp only [Function.comp_apply]
    rw [litVal_ofNat σ (i + 1) (by omega)]
  rw [h1, countP_range_eq_card, card_filter_fin_eq]
  congr 1
  refine Finset.filter_congr ?_
  intro i _
  rw [hp i]

theorem card_cntF_eq (n i : Nat) :
    ((Finset.univ : Finset (Fin n → Bool)).filter (fun u => cntF u = i)).card =
      n.choose i := by
  have hp : (Finset.powersetCard i (Finset.univ : Finset (Fin n))).card = n.choose i := by
    rw [Finset.card_powersetCard, Finset.card_univ, Fintype.card_fin]
  rw [← hp]
  refine Finset.card_bij
    (fun u _ => (Finset.univ : Finset (Fin n)).filter (fun j => u j = true)) ?_ ?_ ?_
  · intro u hu
    rw [Finset.mem_powersetCard]
    rw [Finset.mem_filter] at hu
    exact ⟨Finset.filter_subset _ _, hu.2⟩
  · intro u1 h1 u2 h2 heq
    funext j
    have heq2 : (Finset.univ : Finset (Fin n)).filter (fun j => u1 j = true) =
        (Finset.univ : Finset (Fin n)).filter (fun j => u2 j = true) := heq
    have hj : (j ∈ (Finset.univ : Finset (Fin n)).filter (fun j => u1 j = true)) ↔
        (j ∈ (Finset.univ : Finset (Fin n)).filter (fun j => u2 j = true)) := by
      rw [heq2]
    simp only [Finset.mem_filter, Finset.mem_univ, true_and] at hj
    cases hu1 : u1 j <;> cases hu2 : u2 j <;> simp_all
  · intro s hs
    rw [Finset.mem_powersetCard] at hs
    refine ⟨fun j => decide (j ∈ s), ?_, ?_⟩
    · rw [Finset.mem_filter]
      refine ⟨Finset.mem_univ _, ?_⟩
      unfold cntF
      rw [← hs.2]
      congr 1
      ext j
      simp
    · show (Finset.univ : Finset (Fin n)).filter
        (fun j => decide (j ∈ s) = true) = s
      ext j
      simp

theorem card_cntF_le (n k : Nat) :
    ((Finset.univ : Finset (Fin n → Bool)).filter (fun u => cntF u ≤ k)).card =
      ∑ i in Finset.range (k + 1), n.choose i := by
  rw [Finset.card_eq_sum_card_fiberwise
    (f := cntF) (t := Finset.range (k + 1))
    (fun u hu => Finset.mem_range.mpr (by
      rw [Finset.mem_filter] at hu
      omega))]
  refine Finset.sum_congr rfl ?_
  intro i hi
  rw [Finset.mem_range] at hi
  rw [Finset.filter_filter]
  rw [Finset.filter_congr (q := fun u => cntF u = i) (fun u _ => by
    constructor
    · rintro ⟨_, h⟩
      exact h
    · rintro h
      exact ⟨by omega, h⟩)]
  exact card_cntF_eq n i

/-! ## AtMostK and ExactlyK model characterisation -/

theorem extendInput_spec (n : Nat) (u : Fin n → Bool) (i : Fin n) :
    extendInput n u (i.1 + 1) = u i := by
  unfold extendInput
  rw [dif_pos (show 1 ≤ i.1 + 1 ∧ i.1 + 1 ≤ n from ⟨by omega, by omega⟩)]
  congr

theorem inputLits_spec {n : Nat} {l : Int} (hl : l ∈ inputLits n) :
    l ≠ 0 ∧ l.natAbs < n + 1 ∧ ∃ i : Fin n, l = ((i.1 + 1 : Nat) : Int) := by
  unfold inputLits at hl
  rw [List.mem_map] at hl
  obtain ⟨i, hi, rfl⟩ := hl
  rw [List.mem_range] at hi
  refine ⟨by omega, by rw [Int.natAbs_ofNat]; omega, ⟨i, hi⟩, rfl⟩

theorem cntF_eq_zero_iff {n : Nat} (u : Fin n → Bool) :
    cntF u = 0 ↔ ∀ i, u i = false := by
  unfold cntF
  rw [Finset.card_eq_zero, Finset.filter_eq_empty_iff]
  simp

theorem AtMostK_encode_pos {lits : List Int} {k : Nat} {st st' : EncState}
    (hk : k ≠ 0) (h : AtMostK_encode lits k st = some st') :
    ∃ row stc, encode_cardinality_constraint lits (k + 1) .inToOut none st =
      some (row, stc) ∧ st' = addClause [-(row.getLastD 0)] stc := by
  unfold AtMostK_encode at h
  rw [if_neg hk] at h
  cases hc : encode_cardinality_constraint lits (k + 1) .inToOut none st with
  | none => rw [hc] at h; cases h
  | some p =>
    rw [hc] at h
    exact ⟨p.1, p.2, rfl, (Option.some.inj h).symm⟩

theorem AtMostK_encode_zero {lits : List Int} {st st' : EncState}
    (h : AtMostK_encode lits 0 st = some st') :
    st' = lits.foldl (fun st v => addClause [-v] st) st := by
  unfold AtMostK_encode at h
  rw [if_pos rfl] at h
  exact (Option.some.inj h).symm

/-- C4: for `AtMostK{k, lits}` over `n ≥ 1` named inputs (any `k`), the
satisfying assignments projected to the inputs are exactly those with at most
`k` inputs true, and the number of such projections is `∑ i ≤ k, C(n,i)`. -/
theorem AtMostK_models (n k : Nat) (st' : EncState) (hn : 1 ≤ n)
    (h : AtMostK_encode (inputLits n) k (initState n) = some st') :
    (∀ u : Fin n → Bool,
      ((∃ σ, (∀ i : Fin n, σ (i.1 + 1) = u i) ∧ satAll σ st'.clauses) ↔
        cntF u ≤ k)) ∧
    Nat.card {u : Fin n → Bool // ∃ σ, (∀ i : Fin n, σ (i.1 + 1) = u i) ∧
      satAll σ st'.clauses} = ∑ i in Finset.range (k + 1), n.choose i := by
  have hproj : ∀ u : Fin n → Bool,
      ((∃ σ, (∀ i : Fin n, σ (i.1 + 1) = u i) ∧ satAll σ st'.clauses) ↔
        cntF u ≤ k) := by
    intro u
    rcases Nat.eq_zero_or_pos k with rfl | hk
    · -- k = 0: unit clauses negating every input
      have hst' := AtMostK_encode_zero h
      have hcl : ∀ c : Clause, c ∈ st'.clauses ↔
          ∃ l ∈ inputLits n, c = [-l] := by
        intro c
        rw [hst']
        have := foldl_addClause_clauses (fun v => [-v]) (inputLits n) (initState n)
          (x := c)
        simp only [initState] at this ⊢
        rw [this]
        simp
      constructor
      · rintro ⟨σ, hσ, hsat⟩
        have hall : ∀ i : Fin n, u i = false := by
          intro i
          have hc : [-(((i.1 + 1 : Nat) : Int))] ∈ st'.clauses := by
            rw [hcl]
            refine ⟨((i.1 + 1 : Nat) : Int), ?_, rfl⟩
            unfold inputLits
            rw [List.mem_map]
            exact ⟨i.1, List.mem_range.mpr i.2, rfl⟩
          have := hsat _ hc
          simp only [clauseSat, List.any_cons, List.any_nil, Bool.or_false] at this
          rw [litVal_neg σ (by omega), litVal_ofNat σ (i.1 + 1) (by omega)] at this
          rw [hσ i] at this
          simpa using this
        rw [(cntF_eq_zero_iff u).mpr hall]
      · intro hcnt
        have hall : ∀ i, u i = false :=
          (cntF_eq_zero_iff u).mp (by omega)
        refine ⟨extendInput n u, fun i => extendInput_spec n u i, ?_⟩
        intro c hc
        rw [hcl] at hc
        obtain ⟨l, hl, rfl⟩ := hc
        obtain ⟨hl0, _, i, rfl⟩ := inputLits_spec hl
        simp only [clauseSat, List.any_cons, List.any_nil, Bool.or_false]
        rw [litVal_neg _ hl0, litVal_ofNat _ (i.1 + 1) (by omega),
          extendInput_spec n u i, hall i]
        rfl
    · -- k ≥ 1: counter with k+1 outputs and a negated last output
      obtain ⟨row, stc, hc, hst'⟩ := AtMostK_encode_pos (by omega) h
      have hN : 1 ≤ (initState n).nextVar := by simp [initState]
      have hrows := counter_rows hc hN
      have hlast : row.getLastD 0 = row.getD k 0 := by
        rw [getLastD_eq_getD, hrows.1]
        simp
      have hrowk := hrows.2 k (by omega)
      constructor
      · rintro ⟨σ, hσ, hsat⟩
        have hsatc : ∀ c ∈ stc.clauses, clauseSat σ c = true := by
          intro c hcc
          refine hsat c ?_
          rw [hst', mem_addClause]
          exact Or.inl hcc
        have hunit : clauseSat σ [-(row.getLastD 0)] = true := by
          refine hsat _ ?_
          rw [hst', mem_addClause]
          exact Or.inr rfl
        simp only [clauseSat, List.any_cons, List.any_nil, Bool.or_false] at hunit
        rw [hlast, litVal_neg σ (ne_of_gt hrowk.1)] at hunit
        have hrowfalse : litVal σ (row.getD k 0) = false := by
          cases hx : litVal σ (row.getD k 0)
          · rfl
          · rw [hx] at hunit; simp at hunit
        have hlow := counter_low (d := .inToOut) rfl hc hN
          (fun l hl => (inputLits_spec hl).1) σ hsatc
        have hcnt : ¬ (k + 1 ≤ cnt σ (inputLits n)) := by
          intro hge
          have := hlow k (by omega) hge
          rw [this] at hrowfalse
          cases hrowfalse
        rw [cnt_inputLits σ u hσ] at hcnt
        omega
      · intro hcnt
        obtain ⟨σ, hagree, hmemsat, hrowcan⟩ := counter_ext hc hN
          (fun c hcc => absurd hcc (List.not_mem_nil c))
          (fun l hl => ⟨(inputLits_spec hl).1, (inputLits_spec hl).2.1⟩)
          (extendInput n u)
        have hσu : ∀ i : Fin n, σ (i.1 + 1) = u i := by
          intro i
          rw [hagree (i.1 + 1) (show i.1 + 1 < (initState n).nextVar from by
            show i.1 + 1 < n + 1
            omega), extendInput_spec n u i]
        refine ⟨σ, hσu, ?_⟩
        intro c hcc
        rw [hst', mem_addClause] at hcc
        rcases hcc with hcc | rfl
        · rcases hmemsat c hcc with h0 | hs
          · exact absurd h0 (List.not_mem_nil c)
          · exact hs
        · simp only [clauseSat, List.any_cons, List.any_nil, Bool.or_false]
          rw [hlast, litVal_neg σ (ne_of_gt hrowk.1)]
          have := hrowcan k (by omega)
          rw [cnt_inputLits (extendInput n u) u (fun i => extendInput_spec n u i)]
            at this
          have hfalse : decide (k + 1 ≤ cntF u) = false := by
            simp only [decide_eq_false_iff_not]
            omega
          rw [this, hfalse]
          rfl
  refine ⟨hproj, ?_⟩
  rw [Nat.card_congr (Equiv.subtypeEquivRight (fun u => hproj u)),
    Nat.card_eq_fintype_card, Fintype.card_subtype]
  exact card_cntF_le n k

theorem ExactlyK_encode_pos {lits : List Int} {k : Nat} {st st' : EncState}
    (hk : k ≠ 0) (h : ExactlyK_encode lits k st = some st') :
    ∃ row stc, encode_cardinality_constraint lits (k + 1) .both none st =
      some (row, stc) ∧
      st' = addClause [-(row.getD (row.length - 1) 0)]
        (addClause [row.getD (row.length - 2) 0] stc) := by
  unfold ExactlyK_encode at h
  rw [if_neg hk] at h
  cases hc : encode_cardinality_constraint lits (k + 1) .both none st with
  | none => rw [hc] at h; cases h
  | some p =>
    rw [hc] at h
    exact ⟨p.1, p.2, rfl, (Option.some.inj h).symm⟩

theorem ExactlyK_encode_zero {lits : List Int} {st st' : EncState}
    (h : ExactlyK_encode lits 0 st = some st') :
    st' = lits.foldl (fun st v => addClause [-v] st) st := by
  unfold ExactlyK_encode at h
  rw [if_pos rfl] at h
  exact (Option.some.inj h).symm

/-- C5: for `ExactlyK{k, lits}` over `n ≥ 1` named inputs (any `k`), the
satisfying assignments projected to the inputs are exactly those with exactly
`k` inputs true, and the number of such projections is `C(n,k)`. -/
theorem ExactlyK_models (n k : Nat) (st' : EncState) (hn : 1 ≤ n)
    (h : ExactlyK_encode (inputLits n) k (initState n) = some st') :
    (∀ u : Fin n → Bool,
      ((∃ σ, (∀ i : Fin n, σ (i.1 + 1) = u i) ∧ satAll σ st'.clauses) ↔
        cntF u = k)) ∧
    Nat.card {u : Fin n → Bool // ∃ σ, (∀ i : Fin n, σ (i.1 + 1) = u i) ∧
      satAll σ st'.clauses} = n.choose k := by
  have hproj : ∀ u : Fin n → Bool,
      ((∃ σ, (∀ i : Fin n, σ (i.1 + 1) = u i) ∧ satAll σ st'.clauses) ↔
        cntF u = k) := by
    intro u
    rcases Nat.eq_zero_or_pos k with rfl | hk
    · have hst' := ExactlyK_encode_zero h
      have hcl : ∀ c : Clause, c ∈ st'.clauses ↔
          ∃ l ∈ inputLits n, c = [-l] := by
        intro c
        rw [hst']
        have := foldl_addClause_clauses (fun v => [-v]) (inputLits n) (initState n)
          (x := c)
        simp only [initState] at this ⊢
        rw [this]
        simp
      constructor
      · rintro ⟨σ, hσ, hsat⟩
        have hall : ∀ i : Fin n, u i = false := by
          intro i
          have hc : [-(((i.1 + 1 : Nat) : Int))] ∈ st'.clauses := by
            rw [hcl]
            refine ⟨((i.1 + 1 : Nat) : Int), ?_, rfl⟩
            unfold inputLits
            rw [List.mem_map]
            exact ⟨i.1, List.mem_range.mpr i.2, rfl⟩
          have := hsat _ hc
          simp only [clauseSat, List.any_cons, List.any_nil, Bool.or_false] at this
          rw [litVal_neg σ (by omega), litVal_ofNat σ (i.1 + 1) (by omega)] at this
          rw [hσ i] at this
          simpa using this
        rw [(cntF_eq_zero_iff u).mpr hall]
      · intro hcnt
        have hall : ∀ i, u i = false := (cntF_eq_zero_iff u).mp hcnt
        refine ⟨extendInput n u, fun i => extendInput_spec n u i, ?_⟩
        intro c hc
        rw [hcl] at hc
        obtain ⟨l, hl, rfl⟩ := hc
        obtain ⟨hl0, _, i, rfl⟩ := inputLits_spec hl
        simp only [clauseSat, List.any_cons, List.any_nil, Bool.or_false]
        rw [litVal_neg _ hl0, litVal_ofNat _ (i.1 + 1) (by omega),
          extendInput_spec n u i, hall i]
        rfl
    · obtain ⟨row, stc, hc, hst'⟩ := ExactlyK_encode_pos (by omega) h
      have hN : 1 ≤ (initState n).nextVar := by simp [initState]
      have hrows := counter_rows hc hN
      have hidx1 : row.length - 1 = k := by rw [hrows.1]; omega
      have hidx2 : row.length - 2 = k - 1 := by rw [hrows.1]; omega
      have hrowk := hrows.2 k (by omega)
      have hrowk1 := hrows.2 (k - 1) (by omega)
      constructor
      · rintro ⟨σ, hσ, hsat⟩
        have hsatc : ∀ c ∈ stc.clauses, clauseSat σ c = true := by
          intro c hcc
          refine hsat c ?_
          rw [hst', mem_addClause, mem_addClause]
          exact Or.inl (Or.inl hcc)
        have hunit1 : clauseSat σ [row.getD (row.length - 2) 0] = true := by
          refine hsat _ ?_
          rw [hst', mem_addClause, mem_addClause]
          exact Or.inl (Or.inr rfl)
        have hunit2 : clauseSat σ [-(row.getD (row.length - 1) 0)] = true := by
          refine hsat _ ?_
          rw [hst', mem_addClause]
          exact Or.inr rfl
        simp only [clauseSat, List.any_cons, List.any_nil,
          Bool.or_false] at hunit1 hunit2
        rw [hidx2] at hunit1
        rw [hidx1, litVal_neg σ (ne_of_gt hrowk.1)] at hunit2
        have hrowfalse : litVal σ (row.getD k 0) = false := by
          cases hx : litVal σ (row.getD k 0)
          · rfl
          · rw [hx] at hunit2; simp at hunit2
        have hup := counter_up (d := .both) rfl hc hN
          (fun l hl => (inputLits_spec hl).1) σ hsatc
        have hlow := counter_low (d := .both) rfl hc hN
          (fun l hl => (inputLits_spec hl).1) σ hsatc
        have hge : k ≤ cnt σ (inputLits n) := by
          have := hup (k - 1) (by omega) hunit1
          omega
        have hlt : ¬ (k + 1 ≤ cnt σ (inputLits n)) := by
          intro hgek
          have := hlow k (by omega) hgek
          rw [this] at hrowfalse
          cases hrowfalse
        rw [cnt_inputLits σ u hσ] at hge hlt
        omega
      · intro hcnt
        obtain ⟨σ, hagree, hmemsat, hrowcan⟩ := counter_ext hc hN
          (fun c hcc => absurd hcc (List.not_mem_nil c))
          (fun l hl => ⟨(inputLits_spec hl).1, (inputLits_spec hl).2.1⟩)
          (extendInput n u)
        have hcntlits : cnt (extendInput n u) (inputLits n) = k := by
          rw [cnt_inputLits (extendInput n u) u (fun i => extendInput_spec n u i)]
          exact hcnt
        have hσu : ∀ i : Fin n, σ (i.1 + 1) = u i := by
          intro i
          rw [hagree (i.1 + 1) (show i.1 + 1 < (initState n).nextVar from by
            show i.1 + 1 < n + 1
            omega), extendInput_spec n u i]
        refine ⟨σ, hσu, ?_⟩
        intro c hcc
        rw [hst', mem_addClause, mem_addClause] at hcc
        rcases hcc with (hcc | rfl) | rfl
        · rcases hmemsat c hcc with h0 | hs
          · exact absurd h0 (List.not_mem_nil c)
          · exact hs
        · simp only [clauseSat, List.any_cons, List.any_nil, Bool.or_false]
          rw [hidx2]
          have := hrowcan (k - 1) (by omega)
          rw [hcntlits] at this
          rw [this]
          simp only [decide_eq_true_eq]
          omega
        · simp only [clauseSat, List.any_cons, List.any_nil, Bool.or_false]
          rw [hidx1, litVal_neg σ (ne_of_gt hrowk.1)]
          have := hrowcan k (by omega)
          rw [hcntlits] at this
          rw [this]
          have hfalse : decide (k + 1 ≤ k) = false := by
            simp only [decide_eq_false_iff_not]
            omega
          rw [hfalse]
          rfl
  refine ⟨hproj, ?_⟩
  rw [Nat.card_congr (Equiv.subtypeEquivRight (fun u => hproj u)),
    Nat.card_eq_fintype_card, Fintype.card_subtype]
  exact card_cntF_eq n k

/-! ## Concrete evaluations exhibiting code bugs -/

/-- C2 (code bug): `AtMostK::encode_constraint_implies_repr` with a supplied
repr emits `{r, repr}` and `{¬r, ¬repr}`, tying the supplied repr to the
negation of the internal repr.  For `AtMostK{k=1, lits=[x₁]}` with supplied
repr `2`, the all-false assignment satisfies every emitted clause and the
constraint (0 ≤ 1 literal true) holds, yet the repr is false — the repr is
not forced true when the constraint holds. -/
theorem atMostK_implies_repr_supplied_inverted :
    AtMostK_implies_repr [1] 1 (some 2) ⟨3, []⟩ =
      some (2, ⟨5, [[1, -3], [-4], [-4, 2], [4, -2]]⟩) ∧
    satAll (fun _ => false) [[1, -3], [-4], [-4, 2], [4, -2]] ∧
    cnt (fun _ => false) [1] ≤ 1 ∧
    (fun _ => false : Nat → Bool) 2 = false := by
  refine ⟨by decide, by decide, by decide, rfl⟩

/-- C3 (code bug): `AtMostK::encode_constraint_equals_repr` with a supplied
repr has the same inversion.  For `AtMostK{k=1, lits=[x₁]}` with supplied
repr `2`, the assignment making `x₁` true (so the constraint holds: 1 ≤ 1)
satisfies every emitted clause with the repr false. -/
theorem atMostK_equals_repr_supplied_inverted :
    AtMostK_equals_repr [1] 1 (some 2) ⟨3, []⟩ =
      some (2, ⟨5, [[-1, 3], [1, -3], [-4], [-4, 2], [4, -2]]⟩) ∧
    satAll (fun m => m == 1 || m == 3) [[-1, 3], [1, -3], [-4], [-4, 2], [4, -2]] ∧
    cnt (fun m => m == 1 || m == 3) [1] ≤ 1 ∧
    (fun m => m == 1 || m == 3 : Nat → Bool) 2 = false := by
  refine ⟨by decide, by decide, by decide, by decide⟩

/-- C6 (code bug): `SameCardinality::encode` over the two singleton groups
`[x₁]` and `[x₂]` emits clauses that never constrain the shared output row
(the counter ignores `out` when it has a single input), so the assignment
with `x₁` true and `x₂` false — group counts 1 and 0 — satisfies every
emitted clause. -/
theorem sameCardinality_singleton_groups_bug :
    SameCardinality_encode [[1], [2]] ⟨3, []⟩ =
      some ⟨6, [[-1, 4], [1, -4], [-2, 5], [2, -5]]⟩ ∧
    satAll (fun m => m == 1 || m == 4) [[-1, 4], [1, -4], [-2, 5], [2, -5]] ∧
    cnt (fun m => m == 1 || m == 4) [1] = 1 ∧
    cnt (fun m => m == 1 || m == 4) [2] = 0 := by
  refine ⟨by decide, by decide, by decide, by decide⟩

/-- C7 (code bug): with a single input literal and a supplied `out` row, the
counter's row loop never runs, so the supplied row is neither returned nor
constrained: the returned row is the freshly allocated first row `[3]`, not
the supplied `[2]`, and no emitted clause mentions variable 2. -/
theorem counter_out_ignored_single_input :
    encode_cardinality_constraint [1] 1 .both (some [2]) ⟨3, []⟩ =
      some ([3], ⟨4, [[-1, 3], [1, -3]]⟩) ∧
    ([3] : List Int) ≠ [2] ∧
    (∀ c ∈ [[-1, 3], [1, -3]], ∀ l ∈ c, (l : Int).natAbs ≠ 2) := by
  refine ⟨by decide, by decide, by decide⟩

/-- C9 (code bug): `Lit::is_neg` is written as `matches!(self, Self::Pos(_))`
in the source, so it returns `false` on a negative literal and `true` on a
positive one — the opposite of the specified behaviour.  `is_pos` itself is
correct. -/
theorem lit_is_neg_returns_is_pos :
    (Lit.Neg (0 : Nat)).is_neg = false ∧ (Lit.Pos (0 : Nat)).is_neg = true ∧
    (Lit.Pos (0 : Nat)).is_pos = true ∧ (Lit.Neg (0 : Nat)).is_pos = false := by
  refine ⟨rfl, rfl, rfl, rfl⟩

/-- C10: every cardinality `encode_constraint_implies_repr` and
`encode_constraint_equals_repr` implementation returns the supplied repr
unchanged whenever one is given; a fresh variable is chosen only for `None`. -/
theorem supplied_repr_returned :
    ∀ (lits : List Int) (groups : List (List Int)) (k : Nat) (r : Int)
      (st : EncState) (ret : Int) (st₂ : EncState) (b : Bool),
      (AtMostK_implies_repr lits k (some r) st = some (ret, st₂) → ret = r) ∧
      (AtMostK_equals_repr lits k (some r) st = some (ret, st₂) → ret = r) ∧
      (AtleastK_implies_repr lits k (some r) st = some (ret, st₂) → ret = r) ∧
      (AtleastK_equals_repr lits k (some r) st = some (ret, st₂) → ret = r) ∧
      (ExactlyK_implies_repr lits k (some r) st = some (ret, st₂) → ret = r) ∧
      (ExactlyK_equals_repr lits k (some r) st = some (ret, st₂) → ret = r) ∧
      (encode_same_cardinality_repr groups (some r) b st = some (ret, st₂) →
        ret = r) := by
  intro lits groups k r st ret st₂ b
  refine ⟨?_, ?_, ?_, ?_, ?_, ?_, ?_⟩
  · intro h
    unfold AtMostK_implies_repr at h
    by_cases hk : k = 0
    · rw [if_pos hk] at h
      exact (congrArg Prod.fst (Option.some.inj h)).symm
    · rw [if_neg hk] at h
      cases hcc : encode_cardinality_constraint lits (k + 1) .outToIn none st with
      | none => rw [hcc] at h; cases h
      | some p =>
        obtain ⟨out, stx⟩ := p
        rw [hcc] at h
        exact (congrArg Prod.fst (Option.some.inj h)).symm
  · intro h
    unfold AtMostK_equals_repr at h
    by_cases hk : k = 0
    · rw [if_pos hk] at h
      exact (congrArg Prod.fst (Option.some.inj h)).symm
    · rw [if_neg hk] at h
      cases hcc : encode_cardinality_constraint lits (k + 1) .both none st with
      | none => rw [hcc] at h; cases h
      | some p =>
        obtain ⟨out, stx⟩ := p
        rw [hcc] at h
        exact (congrArg Prod.fst (Option.some.inj h)).symm
  · intro h
    unfold AtleastK_implies_repr at h
    by_cases hk : k = 0
    · rw [if_pos hk] at h
      exact (congrArg Prod.fst (Option.some.inj h)).symm
    · rw [if_neg hk] at h
      cases hcc : encode_cardinality_constraint lits k .inToOut none st with
      | none => rw [hcc] at h; cases h
      | some p =>
        obtain ⟨out, stx⟩ := p
        rw [hcc] at h
        exact (congrArg Prod.fst (Option.some.inj h)).symm
  · intro h
    unfold AtleastK_equals_repr at h
    by_cases hk : k = 0
    · rw [if_pos hk] at h
      exact (congrArg Prod.fst (Option.some.inj h)).symm
    · rw [if_neg hk] at h
      cases hcc : encode_cardinality_constraint lits k .both none st with
      | none => rw [hcc] at h; cases h
      | some p =>
        obtain ⟨out, stx⟩ := p
        rw [hcc] at h
        exact (congrArg Prod.fst (Option.some.inj h)).symm
  · intro h
    unfold ExactlyK_implies_repr at h
    by_cases hk : k = 0
    · rw [if_pos hk] at h
      exact (congrArg Prod.fst (Option.some.inj h)).symm
    · rw [if_neg hk] at h
      cases hcc : encode_cardinality_constraint lits (k + 1) .both none st with
      | none => rw [hcc] at h; cases h
      | some p =>
        obtain ⟨out, stx⟩ := p
        rw [hcc] at h
        exact (congrArg Prod.fst (Option.some.inj h)).symm
  · intro h
    unfold ExactlyK_equals_repr at h
    by_cases hk : k = 0
    · rw [if_pos hk] at h
      exact (congrArg Prod.fst (Option.some.inj h)).symm
    · rw [if_neg hk] at h
      cases hcc : encode_cardinality_constraint lits (k + 1) .both none st with
      | none => rw [hcc] at h; cases h
      | some p =>
        obtain ⟨out, stx⟩ := p
        rw [hcc] at h
        exact (congrArg Prod.fst (Option.some.inj h)).symm
  · intro h
    cases groups with
    | nil => exact (congrArg Prod.fst (Option.some.inj h)).symm
    | cons g gs =>
      simp only [encode_same_cardinality_repr] at h
      cases hrr : sameCardReprRows (maxLen (g :: gs)) (g :: gs) st with
      | none => rw [hrr] at h; cases h
      | some p =>
        obtain ⟨rows, stx⟩ := p
        rw [hrr] at h
        exact (congrArg Prod.fst (Option.some.inj h)).symm

/-- Witness for the counter correctness theorem at the concrete instance
`lits = [1, 2]`, `k = 1`, two allocated inputs. -/
theorem counter_both_correct_witness :
    ((1 : Nat) ≤ 3 ∧ (∀ l ∈ ([1, 2] : List Int), l ≠ 0 ∧ l.natAbs < 3) ∧
      encode_cardinality_constraint [1, 2] 1 .both none ⟨3, []⟩ =
        some ([4], ⟨5, [[-1, 3], [1, -3], [-2, 4], [-3, 4], [-4, 2, 3]]⟩)) ∧
    ((∀ σ, satAll σ (⟨5, [[-1, 3], [1, -3], [-2, 4], [-3, 4], [-4, 2, 3]]⟩ :
        EncState).clauses →
      ∀ j < 1, litVal σ (([4] : List Int).getD j 0) =
        decide (j + 1 ≤ cnt σ [1, 2])) ∧
    (∀ σ₀ : Nat → Bool, ∃ σ, agreeBelow 3 σ σ₀ ∧
      satAll σ (⟨5, [[-1, 3], [1, -3], [-2, 4], [-3, 4], [-4, 2, 3]]⟩ :
        EncState).clauses ∧
      ∀ j < 1, litVal σ (([4] : List Int).getD j 0) =
        decide (j + 1 ≤ cnt σ₀ [1, 2]))) :=
  ⟨⟨by decide, by decide, by decide⟩,
    counter_both_correct [1, 2] 1 3 [4]
      ⟨5, [[-1, 3], [1, -3], [-2, 4], [-3, 4], [-4, 2, 3]]⟩
      (by decide) (by decide) (by decide)⟩

/-- Witness for `AtMostK_models` at `n = 2`, `k = 1`. -/
theorem AtMostK_models_witness :
    ((1 : Nat) ≤ 2 ∧ AtMostK_encode (inputLits 2) 1 (initState 2) =
      some ⟨8, [[-1, 3], [-4], [-2, 5], [-3, 5], [-2, -3, 7], [-7, 6],
        [-4, 6], [-6]]⟩) ∧
    ((∀ u : Fin 2 → Bool,
      ((∃ σ, (∀ i : Fin 2, σ (i.1 + 1) = u i) ∧
        satAll σ (⟨8, [[-1, 3], [-4], [-2, 5], [-3, 5], [-2, -3, 7], [-7, 6],
          [-4, 6], [-6]]⟩ : EncState).clauses) ↔ cntF u ≤ 1)) ∧
    Nat.card {u : Fin 2 → Bool // ∃ σ, (∀ i : Fin 2, σ (i.1 + 1) = u i) ∧
      satAll σ (⟨8, [[-1, 3], [-4], [-2, 5], [-3, 5], [-2, -3, 7], [-7, 6],
        [-4, 6], [-6]]⟩ : EncState).clauses} =
      ∑ i in Finset.range 2, Nat.choose 2 i) :=
  ⟨⟨by decide, by decide⟩,
    AtMostK_models 2 1
      ⟨8, [[-1, 3], [-4], [-2, 5], [-3, 5], [-2, -3, 7], [-7, 6], [-4, 6], [-6]]⟩
      (by decide) (by decide)⟩

/-- Witness for `ExactlyK_models` at `n = 2`, `k = 1`. -/
theorem ExactlyK_models_witness :
    ((1 : Nat) ≤ 2 ∧ ExactlyK_encode (inputLits 2) 1 (initState 2) =
      some ⟨8, [[-1, 3], [1, -3], [-4], [-2, 5], [-3, 5], [-5, 2, 3],
        [-2, -3, 7], [-7, 2], [-7, 3], [-7, 6], [-4, 6], [-6, 7, 4],
        [5], [-6]]⟩) ∧
    ((∀ u : Fin 2 → Bool,
      ((∃ σ, (∀ i : Fin 2, σ (i.1 + 1) = u i) ∧
        satAll σ (⟨8, [[-1, 3], [1, -3], [-4], [-2, 5], [-3, 5], [-5, 2, 3],
          [-2, -3, 7], [-7, 2], [-7, 3], [-7, 6], [-4, 6], [-6, 7, 4],
          [5], [-6]]⟩ : EncState).clauses) ↔ cntF u = 1)) ∧
    Nat.card {u : Fin 2 → Bool // ∃ σ, (∀ i : Fin 2, σ (i.1 + 1) = u i) ∧
      satAll σ (⟨8, [[-1, 3], [1, -3], [-4], [-2, 5], [-3, 5], [-5, 2, 3],
        [-2, -3, 7], [-7, 2], [-7, 3], [-7, 6], [-4, 6], [-6, 7, 4],
        [5], [-6]]⟩ : EncState).clauses} = Nat.choose 2 1) :=
  ⟨⟨by decide, by decide⟩,
    ExactlyK_models 2 1
      ⟨8, [[-1, 3], [1, -3], [-4], [-2, 5], [-3, 5], [-5, 2, 3],
        [-2, -3, 7], [-7, 2], [-7, 3], [-7, 6], [-4, 6], [-6, 7, 4],
        [5], [-6]]⟩
      (by decide) (by decide)⟩

/-- Witness for the panic characterisation: `k = 0` makes the counter abort. -/
theorem encode_counter_panic_iff_witness :
    encode_cardinality_constraint [1] 0 .both none ⟨2, []⟩ = none :=
  (encode_counter_panic_iff [1] 0 .both none ⟨2, []⟩).mpr (Or.inl rfl)

/-- Witness for `supplied_repr_returned` at a concrete call. -/
theorem supplied_repr_returned_witness :
    AtMostK_implies_repr [1] 1 (some 7) ⟨3, []⟩ =
      some (7, ⟨5, [[1, -3], [-4], [-4, 7], [4, -7]]⟩) ∧ (7 : Int) = 7 :=
  ⟨by decide,
    (supplied_repr_returned [1] [] 1 7 ⟨3, []⟩ 7
      ⟨5, [[1, -3], [-4], [-4, 7], [4, -7]]⟩ false).1 (by decide)⟩
